import Mathlib

/-!
Verification development for the memos-cloudflare document content model.

The definitions below are a shallow embedding of the content-model core:
* `parseLineContent` — the inline tokenizer from `frontend/src/api/client.ts`;
* `convertContentToNodes` — the block scanner from `frontend/src/api/client.ts`;
* `parseMarkdownToNodes` / `restoreNodesToMarkdown` / `extractTextFromChildren`
  — the markdown service scanner and serializer;
* `calculateMemoProperties` — the property classifier from the API client;
* `extractTags` — the persistence-layer tag extractor (modelled from the spec,
  the backend `utils` module is not part of the provided sources).

Strings are processed as `List Char` internally, mirroring the JavaScript
index-based string operations; `String.data`/`String.mk` convert at the edges.
-/

namespace Memos

/-- JavaScript `\s` character class (the whitespace set used by `trim`,
`\s*` in the block regexes and `[^\s]` in the autolink regex). -/
def isJSSpace (c : Char) : Bool :=
  c = ' ' || c = '\t' || c = '\n' || c = '\r' ||
  c.toNat = 11 || c.toNat = 12 || c.toNat = 0xa0 || c.toNat = 0x1680 ||
  (0x2000 ≤ c.toNat && c.toNat ≤ 0x200a) ||
  c.toNat = 0x2028 || c.toNat = 0x2029 || c.toNat = 0x202f ||
  c.toNat = 0x205f || c.toNat = 0x3000 || c.toNat = 0xfeff

/-- The hashtag alphabet `[a-zA-Z0-9一-龥_-]` of the tag regex. -/
def isTagChar (c : Char) : Bool :=
  ('a' ≤ c && c ≤ 'z') || ('A' ≤ c && c ≤ 'Z') || ('0' ≤ c && c ≤ '9') ||
  c = '_' || c = '-' || (0x4e00 ≤ c.toNat && c.toNat ≤ 0x9fa5)

/-- JavaScript `\w` (used by the client's code-fence language capture). -/
def isWordChar (c : Char) : Bool :=
  ('a' ≤ c && c ≤ 'z') || ('A' ≤ c && c ≤ 'Z') || ('0' ≤ c && c ≤ '9') || c = '_'

/-- JavaScript `\d`. -/
def isDigitChar (c : Char) : Bool := '0' ≤ c && c ≤ '9'

/-- JavaScript `String.prototype.trim`. -/
def trimJS (l : List Char) : List Char :=
  ((l.dropWhile isJSSpace).reverse.dropWhile isJSSpace).reverse

/-- JavaScript `content.split('\n')` (note `"".split('\n') = [""]`). -/
def splitNl : List Char → List (List Char)
  | [] => [[]]
  | c :: rest =>
    if c = '\n' then [] :: splitNl rest
    else
      match splitNl rest with
      | [] => [[c]]
      | l :: ls => (c :: l) :: ls

/-- JavaScript `lines.join('\n')`. -/
def joinNl : List (List Char) → List Char
  | [] => []
  | [l] => l
  | l :: rest => l ++ '\n' :: joinNl rest

/-- JavaScript `line.substring(a, b)` for `a ≤ b`. -/
def subList (l : List Char) (a b : Nat) : List Char := (l.drop a).take (b - a)

/-- `line.trim().startsWith('```')` — the code-fence test shared by both
block scanners. -/
def fenceLine (l : List Char) : Bool := ("```".data).isPrefixOf (trimJS l)

/-- The content node type: the tagged variants produced by the two block
scanners and consumed by the serializer (`type` plus the kind-specific
payload object in the source). -/
inductive Node where
  | text (content : String)
  | tag (content : String)
  | autoLink (url : String)
  | code (content : String)
  | lineBreak
  | paragraph (children : List Node)
  | codeBlock (language : String) (content : String)
  | heading (level : Nat) (children : List Node)
  | unorderedListItem (indent : Nat) (children : List Node)
  | orderedListItem (indent : Nat) (number : String) (children : List Node)
  | taskListItem (indent : Nat) (complete : Bool) (children : List Node)
  deriving Repr

/-- One regex match recorded by `parseLineContent`: extent `[start, stop)`
in the line plus the node it will contribute. -/
structure IMatch where
  start : Nat
  stop : Nat
  node : Node
  deriving Repr

/-- Flush of the tag automaton: emit a match if a nonempty name was read. -/
def tagFlush (s i : Nat) (name : List Char) : List IMatch :=
  if name.isEmpty then [] else [⟨s, i, Node.tag ⟨name⟩⟩]

/-- Left-to-right scan of `#([a-zA-Z0-9一-龥_-]+)` with the `g` flag:
`i` is the position of the next character, the optional state records the
position of a pending `#` and the name characters read so far. -/
def tagAux : Nat → Option (Nat × List Char) → List Char → List IMatch
  | _, none, [] => []
  | i, some (s, name), [] => tagFlush s i name
  | i, none, c :: rest =>
    if c = '#' then tagAux (i + 1) (some (i, [])) rest
    else tagAux (i + 1) none rest
  | i, some (s, name), c :: rest =>
    if isTagChar c then tagAux (i + 1) (some (s, name ++ [c])) rest
    else
      tagFlush s i name ++
        (if c = '#' then tagAux (i + 1) (some (i, [])) rest
         else tagAux (i + 1) none rest)

/-- Prefix length matched by `https?:\/\/` at this position, if any. -/
def linkPrefixLen (cs : List Char) : Option Nat :=
  if ("https://".data).isPrefixOf cs then some 8
  else if ("http://".data).isPrefixOf cs then some 7
  else none

theorem linkPrefixLen_pos (cs : List Char) (p : Nat) (h : linkPrefixLen cs = some p) :
    0 < p := by
  unfold linkPrefixLen at h
  split at h
  · simp at h; omega
  · split at h
    · simp at h; omega
    · simp at h

/-- Left-to-right scan of `(https?:\/\/[^\s]+)` with the `g` flag. -/
def linkAux (i : Nat) (cs : List Char) : List IMatch :=
  match cs with
  | [] => []
  | c :: rest =>
    match h : linkPrefixLen (c :: rest) with
    | none => linkAux (i + 1) rest
    | some p =>
      let run := ((c :: rest).drop p).takeWhile (fun ch => !isJSSpace ch)
      if run.isEmpty then linkAux (i + 1) rest
      else
        ⟨i, i + (p + run.length), Node.autoLink ⟨(c :: rest).take (p + run.length)⟩⟩ ::
          linkAux (i + (p + run.length)) ((c :: rest).drop (p + run.length))
termination_by cs.length
decreasing_by
  all_goals simp only [List.length_cons, List.length_drop]
  · omega
  · omega
  · have hp := linkPrefixLen_pos _ _ h
    omega

/-- Stable insertion into a start-sorted match list (goes after equal keys,
matching the stable JavaScript `Array.prototype.sort`). -/
def insertByStart (m : IMatch) : List IMatch → List IMatch
  | [] => [m]
  | x :: xs => if m.start < x.start then m :: x :: xs else x :: insertByStart m xs

/-- `matches.sort((a, b) => a.start - b.start)` — stable sort by start. -/
def sortByStart : List IMatch → List IMatch
  | [] => []
  | m :: ms => insertByStart m (sortByStart ms)

/-- The tag and link matches of a line, merged and sorted by start. -/
def mergedMatches (l : List Char) : List IMatch :=
  sortByStart (tagAux 0 none l ++ linkAux 0 l)

/-- The walk over the sorted matches in `parseLineContent`: emit a TEXT node
for the gap before each match, the match's own node, and a trailing TEXT
node after the last match.  Each emitted node is paired with its source
extent `[start, stop)`. -/
def buildAux (line : List Char) : Nat → List IMatch → List (Node × Nat × Nat)
  | pos, [] =>
    if pos < line.length then
      let t := subList line pos line.length
      if t.isEmpty then [] else [(Node.text ⟨t⟩, pos, line.length)]
    else []
  | pos, m :: ms =>
    (if pos < m.start then
      let t := subList line pos m.start
      if t.isEmpty then [] else [(Node.text ⟨t⟩, pos, m.start)]
     else []) ++
    (m.node, m.start, m.stop) :: buildAux line m.stop ms

/-- `parseLineContent` together with the source extent of each emitted span
(the extents are the formalisation's bookkeeping; the node sequence is
exactly the children array built by the source). -/
def lineSpans (l : List Char) : List (Node × Nat × Nat) :=
  let cs := buildAux l 0 (mergedMatches l)
  if cs.isEmpty then [(Node.text ⟨l⟩, 0, l.length)] else cs

/-- The inline tokenizer `parseLineContent` from the API client. -/
def parseLineContent (line : String) : List Node :=
  (lineSpans line.data).map (·.1)

/-- Language capture of the client's fence: `line.trim().match(/^```(\w*)/)`. -/
def clientLang (l : List Char) : List Char :=
  ((trimJS l).drop 3).takeWhile isWordChar

/-- The client's code-block content accumulator:
`if (codeContent) codeContent += '\n'; codeContent += lines[i]` — note that
the newline is dropped while the accumulator is still empty. -/
def joinQuirk (lines : List (List Char)) : List Char :=
  lines.foldl (fun acc l => if acc.isEmpty then acc ++ l else acc ++ '\n' :: l) []

/-- Condition for a line to continue the current paragraph. -/
def paraCond (l : List Char) : Bool := !(trimJS l).isEmpty && !fenceLine l

/-- The paragraph children assembly: each line's inline run, with a
LINE_BREAK node between consecutive lines (not after the last). -/
def interBreak : List (List Node) → List Node
  | [] => []
  | [x] => x
  | x :: rest => x ++ Node.lineBreak :: interBreak rest

/-- The line loop of `convertContentToNodes` (the client block scanner). -/
def convLines : List (List Char) → List Node
  | [] => []
  | l :: rest =>
    if hf : fenceLine l then
      let body := rest.takeWhile (fun x => !fenceLine x)
      let rest' := rest.dropWhile (fun x => !fenceLine x)
      Node.codeBlock ⟨clientLang l⟩ ⟨joinQuirk body⟩ :: convLines (rest'.drop 1)
    else if hb : (trimJS l).isEmpty then convLines rest
    else
      let para := (l :: rest).takeWhile paraCond
      let rest' := (l :: rest).dropWhile paraCond
      let children := interBreak (para.map (fun x => (lineSpans x).map (·.1)))
      (if children.isEmpty then [] else [Node.paragraph children]) ++ convLines rest'
termination_by ls => ls.length
decreasing_by
  · have h1 : (List.dropWhile (fun x => !fenceLine x) ls).length ≤ ls.length :=
      (List.dropWhile_sublist _).length_le
    have h2 : (List.drop 1 (List.dropWhile (fun x => !fenceLine x) ls)).length ≤
        (List.dropWhile (fun x => !fenceLine x) ls).length := by
      simp [List.length_drop]
    simp only [List.length_cons]
    omega
  · simp
  · have hl : paraCond l = true := by
      simp only [paraCond, Bool.and_eq_true, Bool.not_eq_true']
      exact ⟨by simpa using hb, by simpa using hf⟩
    rw [List.dropWhile_cons_of_pos hl]
    have h1 : (List.dropWhile paraCond ls).length ≤ ls.length :=
      (List.dropWhile_sublist _).length_le
    simp only [List.length_cons]
    omega

/-- `convertContentToNodes` from the API client: empty/whitespace-only input
returns no nodes; otherwise the text is split on newlines and scanned. -/
def convertContentToNodes (content : String) : List Node :=
  if (trimJS content.data).isEmpty then [] else convLines (splitNl content.data)

/-- Match of `^(\s*)- \[([ xX])\] (.*)` — leading-whitespace length, checkbox
character and remaining text. -/
def taskMatch (l : List Char) : Option (Nat × Char × List Char) :=
  let ws := l.takeWhile isJSSpace
  match l.dropWhile isJSSpace with
  | '-' :: ' ' :: '[' :: c :: ']' :: ' ' :: content =>
    if c = ' ' || c = 'x' || c = 'X' then some (ws.length, c, content) else none
  | _ => none

/-- Match of `^(\s*)- (.*)`. -/
def unordMatch (l : List Char) : Option (Nat × List Char) :=
  let ws := l.takeWhile isJSSpace
  match l.dropWhile isJSSpace with
  | '-' :: ' ' :: content => some (ws.length, content)
  | _ => none

/-- Match of `^(\s*)(\d+)\. (.*)`. -/
def ordMatch (l : List Char) : Option (Nat × List Char × List Char) :=
  let ws := l.takeWhile isJSSpace
  let r := l.dropWhile isJSSpace
  let ds := r.takeWhile isDigitChar
  if ds.isEmpty then none
  else
    match r.drop ds.length with
    | '.' :: ' ' :: content => some (ws.length, ds, content)
    | _ => none

/-- Match of `^#{1,6} (.*)` — level and remaining text. -/
def headMatch (l : List Char) : Option (Nat × List Char) :=
  let hs := l.takeWhile (fun c => c = '#')
  if 1 ≤ hs.length && hs.length ≤ 6 then
    match l.drop hs.length with
    | ' ' :: content => some (hs.length, content)
    | _ => none
  else none

/-- Test of the inline-code regex `` `([^`]+)` ``. -/
def hasCodeSpan : List Char → Bool
  | [] => false
  | c :: rest =>
    (c = '`' && !((rest.takeWhile (fun x => !(x = '`'))).isEmpty) &&
      !((rest.dropWhile (fun x => !(x = '`'))).isEmpty)) ||
    hasCodeSpan rest

/-- Leftmost match of `` `([^`]+)` ``: the text before it, the matched span
(backticks included) and the rest of the line. -/
def findCodeSpan : List Char → Option (List Char × List Char × List Char)
  | [] => none
  | c :: rest =>
    if c = '`' then
      if !((rest.takeWhile (fun x => !(x = '`'))).isEmpty) &&
          !((rest.drop (rest.takeWhile (fun x => !(x = '`'))).length).isEmpty) then
        some ([], '`' :: rest.takeWhile (fun x => !(x = '`')) ++ ['`'],
          rest.drop ((rest.takeWhile (fun x => !(x = '`'))).length + 1))
      else
        match findCodeSpan rest with
        | none => none
        | some (pre, m, post) => some (c :: pre, m, post)
    else
      match findCodeSpan rest with
      | none => none
      | some (pre, m, post) => some (c :: pre, m, post)

theorem findCodeSpan_post_lt (cs pre m post : List Char)
    (h : findCodeSpan cs = some (pre, m, post)) : post.length < cs.length := by
  induction cs generalizing pre m post with
  | nil => simp [findCodeSpan] at h
  | cons c rest ih =>
    unfold findCodeSpan at h
    split at h
    · split at h
      · simp only [Option.some.injEq, Prod.mk.injEq] at h
        obtain ⟨-, -, h3⟩ := h
        subst h3
        simp only [List.length_cons, List.length_drop]
        omega
      · split at h
        · simp at h
        · rename_i pre' m' post' heq
          simp only [Option.some.injEq, Prod.mk.injEq] at h
          obtain ⟨-, -, h3⟩ := h
          subst h3
          have := ih _ _ _ heq
          simp only [List.length_cons]
          omega
    · split at h
      · simp at h
      · rename_i pre' m' post' heq
        simp only [Option.some.injEq, Prod.mk.injEq] at h
        obtain ⟨-, -, h3⟩ := h
        subst h3
        have := ih _ _ _ heq
        simp only [List.length_cons]
        omega

/-- JavaScript ``line.split(/(`[^`]+`)/)`` — split with the captured code
spans kept in the output. -/
def splitCodeSpans (cs : List Char) : List (List Char) :=
  match h : findCodeSpan cs with
  | none => [cs]
  | some (pre, m, post) => pre :: m :: splitCodeSpans post
termination_by cs.length
decreasing_by
  exact findCodeSpan_post_lt _ _ _ _ h

/-- One part of the inline-code split: matched spans become CODE nodes,
non-blank unmatched parts become TEXT, blank unmatched parts are dropped. -/
def codePartNodes (p : List Char) : List Node :=
  if !p.isEmpty && p.head? = some '`' && p.getLast? = some '`' then
    [Node.code ⟨(p.drop 1).dropLast⟩]
  else if !(trimJS p).isEmpty then [Node.text ⟨p⟩]
  else []

/-- The line loop of `parseMarkdownToNodes` (the markdown service scanner). -/
def pmLines : List (List Char) → List Node
  | [] => []
  | l :: rest =>
    if fenceLine l then
      let body := rest.takeWhile (fun x => !fenceLine x)
      let rest' := rest.dropWhile (fun x => !fenceLine x)
      Node.codeBlock ⟨(trimJS l).drop 3⟩ ⟨joinNl body⟩ :: pmLines (rest'.drop 1)
    else
      (match taskMatch l with
       | some (wsLen, c, content) =>
         [Node.taskListItem (wsLen / 2) (c = 'x' || c = 'X') [Node.text ⟨content⟩]]
       | none =>
       match unordMatch l with
       | some (wsLen, content) =>
         [Node.unorderedListItem (wsLen / 2) [Node.text ⟨content⟩]]
       | none =>
       match ordMatch l with
       | some (wsLen, ds, content) =>
         [Node.orderedListItem (wsLen / 2) ⟨ds⟩ [Node.text ⟨content⟩]]
       | none =>
       match headMatch l with
       | some (lvl, content) => [Node.heading lvl [Node.text ⟨content⟩]]
       | none =>
       if hasCodeSpan l then
         let children := (splitCodeSpans l).flatMap codePartNodes
         if children.isEmpty then [] else [Node.paragraph children]
       else if !(trimJS l).isEmpty then
         [Node.paragraph [Node.text ⟨l⟩]]
       else [Node.lineBreak]) ++ pmLines rest
termination_by ls => ls.length
decreasing_by
  · have h1 : (List.dropWhile (fun x => !fenceLine x) ls).length ≤ ls.length :=
      (List.dropWhile_sublist _).length_le
    have h2 : (List.drop 1 (List.dropWhile (fun x => !fenceLine x) ls)).length ≤
        (List.dropWhile (fun x => !fenceLine x) ls).length := by
      simp [List.length_drop]
    simp only [List.length_cons]
    omega
  · simp

/-- `parseMarkdownToNodes` from the markdown service client. -/
def parseMarkdownToNodes (markdown : String) : List Node :=
  pmLines (splitNl markdown.data)

/-- One child's contribution in `extractTextFromChildren`: TEXT yields its
content, CODE yields the content wrapped in backticks, and every other kind
falls to the default branch, which finds neither a direct `children` array
(children always live inside the payload object) nor a `textNode` payload
and therefore contributes nothing. -/
def extractOne : Node → List Char
  | Node.text c => c.data
  | Node.code c => '`' :: c.data ++ ['`']
  | _ => []

/-- `extractTextFromChildren` over the raw character list. -/
def extractText (children : List Node) : List Char :=
  (children.map extractOne).flatten

/-- `extractTextFromChildren` from the markdown service client. -/
def extractTextFromChildren (children : List Node) : String :=
  ⟨extractText children⟩

/-- `'  '.repeat(indent)`. -/
def indentChars (n : Nat) : List Char := (List.replicate n [' ', ' ']).flatten

/-- Lines pushed by one node in `restoreNodesToMarkdown`.  The default
branch only re-emits a `textNode` payload, which exists for TEXT alone, so
TAG / AUTO_LINK / CODE at the top level push nothing. -/
def restoreLines : Node → List (List Char)
  | Node.taskListItem ind comp ch =>
    [indentChars ind ++ "- ".data ++ (if comp then "[x]" else "[ ]").data ++
      ' ' :: extractText ch]
  | Node.unorderedListItem ind ch =>
    [indentChars ind ++ "- ".data ++ extractText ch]
  | Node.orderedListItem ind num ch =>
    [indentChars ind ++ num.data ++ ". ".data ++ extractText ch]
  | Node.codeBlock lang content => ["```".data ++ lang.data, content.data, "```".data]
  | Node.heading lvl ch =>
    [List.replicate (if lvl = 0 then 1 else lvl) '#' ++ ' ' :: extractText ch]
  | Node.paragraph ch => [extractText ch]
  | Node.text c => [c.data]
  | Node.lineBreak => [[]]
  | _ => []

/-- `restoreNodesToMarkdown` from the markdown service client: the per-node
lines joined with newlines. -/
def restoreNodesToMarkdown (nodes : List Node) : String :=
  ⟨joinNl (nodes.flatMap restoreLines)⟩

/-- `startsLink cs` holds when `https?:\/\/[^\s]+` matches at the head of
`cs`: one of the two scheme prefixes followed by a non-whitespace char. -/
def startsLink (cs : List Char) : Bool :=
  match linkPrefixLen cs with
  | none => false
  | some p =>
    match cs.drop p with
    | [] => false
    | c :: _ => !isJSSpace c

/-- `/https?:\/\/[^\s]+/.test(content)`. -/
def hasLinkB : List Char → Bool
  | [] => false
  | c :: rest => startsLink (c :: rest) || hasLinkB rest

/-- `- \[[ xX]\]` matches at the head of `cs`. -/
def startsTaskBox (cs : List Char) : Bool :=
  match cs with
  | '-' :: ' ' :: '[' :: c :: ']' :: _ => c = ' ' || c = 'x' || c = 'X'
  | _ => false

/-- Test of the regex `- \[[ xX]\]` against the whole content. -/
def hasTaskListB : List Char → Bool
  | [] => false
  | c :: rest => startsTaskBox (c :: rest) || hasTaskListB rest

/-- Test of the regex `- \[ \]` against the whole content. -/
def hasIncompleteB : List Char → Bool
  | [] => false
  | c :: rest => ("- [ ]".data).isPrefixOf (c :: rest) || hasIncompleteB rest

/-- `/```|`/.test(content)` — true when the text has a fence marker or any
backtick (the alternation's second arm makes any backtick match). -/
def hasCodeB : List Char → Bool
  | [] => false
  | c :: rest => ("```".data).isPrefixOf (c :: rest) || c = '`' || hasCodeB rest

/-- The memo property classifier `calculateMemoProperties` from the API
client: `(hasLink, hasTaskList, hasCode, hasIncompleteTasks)`. -/
def calculateMemoProperties (content : String) : Bool × Bool × Bool × Bool :=
  (hasLinkB content.data, hasTaskListB content.data,
   hasCodeB content.data, hasIncompleteB content.data)

/-- Tag names carried by the matches of a scan. -/
def matchTagNames (ms : List IMatch) : List String :=
  ms.flatMap fun m =>
    match m.node with
    | Node.tag s => [s]
    | _ => []

/-- Tag names found by the tag regex in a single line. -/
def lineTagNames (l : List Char) : List String :=
  matchTagNames (tagAux 0 none l)

/-- Modelled from the spec: the persistence-layer tag extractor invoked by
`updateMemoTags` (backend `utils`, not among the provided sources).  Per
§4.5 it derives the canonical set of hashtags from the raw text using the
same hashtag alphabet as the inline tokenizer's TAG pattern, with
duplicates collapsed. -/
def extractTags (text : String) : List String :=
  (matchTagNames (tagAux 0 none text.data)).dedup

/-- Tag names carried by the TAG nodes of an inline sequence. -/
def inlineTagNames (children : List Node) : List String :=
  children.flatMap fun n =>
    match n with
    | Node.tag s => [s]
    | _ => []

/-- Tag names carried by the TAG nodes of a document (TAG nodes occur as
inline children of the block nodes, or directly at the top level). -/
def docTagNames (nodes : List Node) : List String :=
  nodes.flatMap fun n =>
    match n with
    | Node.paragraph ch => inlineTagNames ch
    | Node.heading _ ch => inlineTagNames ch
    | Node.unorderedListItem _ ch => inlineTagNames ch
    | Node.orderedListItem _ _ ch => inlineTagNames ch
    | Node.taskListItem _ _ ch => inlineTagNames ch
    | Node.tag s => [s]
    | _ => []

/-- The extents of the spans emitted for a line. -/
def lineExtents (l : List Char) : List (Nat × Nat) :=
  (lineSpans l).map (fun t => (t.2.1, t.2.2))

/-- `coversB pos spans len`: the spans tile `[pos, len)` exactly — each
starts where the previous one stopped, never runs backwards, and the last
one stops at `len`. -/
def coversB : Nat → List (Nat × Nat) → Nat → Bool
  | pos, [], len => pos == len
  | pos, (s, e) :: rest, len => s == pos && pos ≤ e && coversB e rest len

/-- Adjacent matches in the sorted list are pairwise disjoint. -/
def chainB : List IMatch → Bool
  | [] => true
  | [_] => true
  | a :: b :: rest => a.stop ≤ b.start && chainB (b :: rest)

/-- Every match starts at or after `pos`, and each subsequent match at or
after the previous one's stop. -/
def chainFrom (pos : Nat) : List IMatch → Bool
  | [] => true
  | m :: rest => pos ≤ m.start && chainFrom m.stop rest

/-- A line that is blank, or plain for the markdown-service scanner: not a
fence, not a task/list/heading line, and without an inline code span. -/
def plainOrBlankB (l : List Char) : Bool :=
  !fenceLine l && (taskMatch l).isNone && (unordMatch l).isNone &&
  (ordMatch l).isNone && (headMatch l).isNone && !hasCodeSpan l

/-- A non-blank line that is plain for both scanners: additionally free of
tag and autolink matches, so the client tokenizer emits a single TEXT
node. -/
def plainBothB (l : List Char) : Bool :=
  !(trimJS l).isEmpty && plainOrBlankB l &&
  (tagAux 0 none l).isEmpty && (linkAux 0 l).isEmpty

/-- Drop TAG and AUTO_LINK nodes from an inline sequence. -/
def eraseInline (children : List Node) : List Node :=
  children.filter fun n =>
    match n with
    | Node.tag _ => false
    | Node.autoLink _ => false
    | _ => true

/-- Drop the TAG and AUTO_LINK children of a block node. -/
def eraseBlock : Node → Node
  | Node.paragraph ch => Node.paragraph (eraseInline ch)
  | Node.heading k ch => Node.heading k (eraseInline ch)
  | Node.unorderedListItem i ch => Node.unorderedListItem i (eraseInline ch)
  | Node.orderedListItem i n ch => Node.orderedListItem i n (eraseInline ch)
  | Node.taskListItem i b ch => Node.taskListItem i b (eraseInline ch)
  | n => n

/-- Drop every TAG and AUTO_LINK node of a document (top level and inline
children of the block nodes). -/
def eraseTagsLinks (nodes : List Node) : List Node :=
  (nodes.filter fun n =>
    match n with
    | Node.tag _ => false
    | Node.autoLink _ => false
    | _ => true).map eraseBlock

/-- The name component of a tag-automaton state. -/
def stName : Option (Nat × List Char) → Option (List Char)
  | none => none
  | some (_, n) => some n

/-- State invariant for the tag automaton: a pending name that started at
position `s` has consumed the `#` and `name.length` characters. -/
def stInv (i : Nat) : Option (Nat × List Char) → Prop
  | none => True
  | some (s, name) => s + 1 + name.length = i

/-! ### Basic lemmas about the line splitter and trimming -/

theorem splitNl_ne_nil (cs : List Char) : splitNl cs ≠ [] := by
  match cs with
  | [] => simp [splitNl]
  | c :: rest =>
    rw [splitNl]
    split
    · simp
    · split <;> simp

theorem splitNl_no_nl (cs : List Char) (h : '\n' ∉ cs) : splitNl cs = [cs] := by
  induction cs with
  | nil => rfl
  | cons c rest ih =>
    rw [splitNl]
    have hc : ¬c = '\n' := fun hc => h (hc ▸ List.mem_cons_self c rest)
    rw [if_neg hc]
    have := ih (fun hm => h (List.mem_cons_of_mem c hm))
    rw [this]

theorem splitNl_append (a b : List Char) (h : '\n' ∉ a) :
    splitNl (a ++ '\n' :: b) = a :: splitNl b := by
  induction a with
  | nil => simp [splitNl]
  | cons c rest ih =>
    have hc : ¬c = '\n' := fun hc => h (hc ▸ List.mem_cons_self c rest)
    have hrest := ih (fun hm => h (List.mem_cons_of_mem c hm))
    rw [List.cons_append, splitNl, if_neg hc, hrest]

theorem splitNl_joinNl (ls : List (List Char)) (hne : ls ≠ [])
    (h : ∀ l ∈ ls, '\n' ∉ l) : splitNl (joinNl ls) = ls := by
  induction ls with
  | nil => exact absurd rfl hne
  | cons l rest ih =>
    match rest with
    | [] => exact splitNl_no_nl l (h l (List.mem_cons_self _ _))
    | r :: rs =>
      rw [show joinNl (l :: r :: rs) = l ++ '\n' :: joinNl (r :: rs) from rfl]
      rw [splitNl_append _ _ (h l (List.mem_cons_self _ _))]
      rw [ih (by simp) (fun x hx => h x (List.mem_cons_of_mem l hx))]

theorem mem_splitNl_mem (cs l : List Char) (hl : l ∈ splitNl cs) :
    ∀ c ∈ l, c ∈ cs := by
  induction cs generalizing l with
  | nil =>
    simp only [splitNl, List.mem_singleton] at hl
    subst hl; simp
  | cons a rest ih =>
    rw [splitNl] at hl
    by_cases ha : a = '\n'
    · rw [if_pos ha] at hl
      rcases List.mem_cons.mp hl with h1 | h1
      · subst h1; simp
      · intro c hc; exact List.mem_cons_of_mem a (ih l h1 c hc)
    · rw [if_neg ha] at hl
      rcases hsp : splitNl rest with _ | ⟨l0, ls0⟩
      · exact absurd hsp (splitNl_ne_nil rest)
      · rw [hsp] at hl
        rcases List.mem_cons.mp hl with h1 | h1
        · subst h1
          intro c hc
          rcases List.mem_cons.mp hc with h2 | h2
          · subst h2; simp
          · exact List.mem_cons_of_mem a (ih l0 (hsp ▸ List.mem_cons_self _ _) c h2)
        · intro c hc
          exact List.mem_cons_of_mem a
            (ih l (hsp ▸ List.mem_cons_of_mem l0 h1) c hc)

theorem takeWhile_space_append (ws r : List Char) (c : Char)
    (hws : ∀ x ∈ ws, isJSSpace x = true) (hc : isJSSpace c = false) :
    (ws ++ c :: r).takeWhile isJSSpace = ws ∧
    (ws ++ c :: r).dropWhile isJSSpace = c :: r := by
  induction ws with
  | nil =>
    simp only [List.nil_append]
    constructor
    · rw [List.takeWhile_cons_of_neg (by simp [hc])]
    · rw [List.dropWhile_cons_of_neg (by simp [hc])]
  | cons w ws' ih =>
    have hw : isJSSpace w = true := hws w (List.mem_cons_self _ _)
    have := ih (fun x hx => hws x (List.mem_cons_of_mem w hx))
    constructor
    · rw [List.cons_append, List.takeWhile_cons_of_pos (by simp [hw]), this.1]
    · rw [List.cons_append, List.dropWhile_cons_of_pos (by simp [hw]), this.2]

theorem trimJS_eq_nil_iff (cs : List Char) :
    trimJS cs = [] ↔ ∀ c ∈ cs, isJSSpace c = true := by
  unfold trimJS
  constructor
  · intro h
    rw [List.reverse_eq_nil_iff, List.dropWhile_eq_nil_iff] at h
    have hall : ∀ x ∈ cs.dropWhile isJSSpace, isJSSpace x = true := by
      intro x hx
      exact h x (List.mem_reverse.mpr hx)
    rcases hdd : cs.dropWhile isJSSpace with _ | ⟨b, bs⟩
    · exact fun x hx => List.dropWhile_eq_nil_iff.mp hdd x hx
    · exfalso
      have hb : isJSSpace b = false := by
        have h0 := List.head?_dropWhile_not isJSSpace cs
        rw [hdd] at h0
        simpa using h0
      have hb' : isJSSpace b = true := hall b (by rw [hdd]; exact List.mem_cons_self _ _)
      rw [hb'] at hb
      simp at hb
  · intro h
    have h1 : cs.dropWhile isJSSpace = [] :=
      List.dropWhile_eq_nil_iff.mpr (fun x hx => h x hx)
    rw [h1]
    simp

theorem trimJS_head (ws : List Char) (c : Char) (r : List Char)
    (hws : ∀ x ∈ ws, isJSSpace x = true) (hc : isJSSpace c = false) :
    ∃ t, trimJS (ws ++ c :: r) = c :: t := by
  unfold trimJS
  rw [(takeWhile_space_append ws r c hws hc).2]
  rcases hdw : (c :: r).reverse.dropWhile isJSSpace with _ | ⟨b, bs⟩
  · exfalso
    have : ∀ x ∈ (c :: r).reverse, isJSSpace x = true :=
      List.dropWhile_eq_nil_iff.mp hdw
    have := this c (List.mem_reverse.mpr (List.mem_cons_self _ _))
    rw [this] at hc
    simp at hc
  · have hsub : List.IsSuffix (b :: bs) (c :: r).reverse := by
      rw [← hdw]
      exact List.dropWhile_suffix _
    have hrev : List.IsPrefix (b :: bs).reverse (c :: r) := by
      rw [← List.reverse_suffix]
      simpa using hsub
    rcases hrev with ⟨t2, ht2⟩
    rcases hrr : (b :: bs).reverse with _ | ⟨d, ds⟩
    · simp at hrr
    · rw [hrr, List.cons_append] at ht2
      have hd : d = c := ((List.cons.injEq _ _ _ _).mp ht2).1
      exact ⟨ds, by rw [hd]⟩

theorem fenceLine_of_head (ws : List Char) (c : Char) (r : List Char)
    (hws : ∀ x ∈ ws, isJSSpace x = true) (hc : isJSSpace c = false)
    (hne : c ≠ '`') : fenceLine (ws ++ c :: r) = false := by
  unfold fenceLine
  obtain ⟨t, ht⟩ := trimJS_head ws c r hws hc
  rw [ht]
  have : ('`' == c) = false := by
    simp only [beq_eq_false_iff_ne, ne_eq]
    exact fun h => hne h.symm
  simp [List.isPrefixOf, this]

theorem taskMatch_mk (ws content : List Char) (c : Char)
    (hws : ∀ x ∈ ws, isJSSpace x = true) (hc : c = ' ' ∨ c = 'x' ∨ c = 'X') :
    taskMatch (ws ++ '-' :: ' ' :: '[' :: c :: ']' :: ' ' :: content) =
      some (ws.length, c, content) := by
  unfold taskMatch
  have hd := takeWhile_space_append ws (' ' :: '[' :: c :: ']' :: ' ' :: content) '-' hws (by decide)
  rw [hd.1, hd.2]
  have : (c = ' ' || c = 'x' || c = 'X') = true := by
    rcases hc with h | h | h <;> subst h <;> decide
  simp [this]

/-! ### Claim C9: the inline tokenizer on the empty line -/

/-- C9 counterexample: the claim says `parseLineContent ""` is the empty
sequence; in fact the no-match fallback pushes a TEXT node whose content is
the whole (empty) line. -/
theorem parseLineContent_empty_ne_nil : parseLineContent "" ≠ [] := by
  intro h
  rw [show parseLineContent "" = (lineSpans []).map (·.1) from rfl] at h
  simp [lineSpans, mergedMatches, tagAux, linkAux, buildAux, sortByStart, subList] at h

/-- C9 (amended): applied to the empty line, `parseLineContent` returns a
single TEXT node with empty content — the fallback has no non-emptiness
guard, so it never returns zero nodes. -/
theorem parseLineContent_empty : parseLineContent "" = [Node.text ""] := by
  show (lineSpans []).map (·.1) = [Node.text ""]
  simp [lineSpans, mergedMatches, tagAux, linkAux, buildAux, sortByStart, subList]

/-! ### Claim C5: blank lines and top-level LINE_BREAK -/

theorem convLines_no_lineBreak (lines : List (List Char)) :
    Node.lineBreak ∉ convLines lines := by
  induction lines using convLines.induct with
  | case1 => simp [convLines]
  | case2 l ls hf rest' ih =>
    rw [convLines]
    simp only [dif_pos hf]
    intro hmem
    rcases List.mem_cons.mp hmem with h | h
    · exact Node.noConfusion h
    · exact ih h
  | case3 l ls hf hb ih =>
    rw [convLines]
    simp only [dif_neg hf, dif_pos hb]
    exact ih
  | case4 l ls hf hb rest' ih =>
    rw [convLines]
    simp only [dif_neg hf, dif_neg hb]
    intro hmem
    rcases List.mem_append.mp hmem with h | h
    · split at h
      · simp at h
      · rcases List.mem_singleton.mp h with h1
        exact Node.noConfusion h1
    · exact ih h

/-- C5 counterexample: in the markdown-service scanner a blank line does
contribute a node — the empty input parses to a top-level LINE_BREAK. -/
theorem parseMarkdownToNodes_empty :
    parseMarkdownToNodes "" = [Node.lineBreak] ∧
    Node.lineBreak ∈ parseMarkdownToNodes "" := by
  have h : parseMarkdownToNodes "" = [Node.lineBreak] := by
    show pmLines [[]] = [Node.lineBreak]
    simp [pmLines, fenceLine, trimJS, taskMatch, unordMatch, ordMatch, headMatch,
      hasCodeSpan, List.isPrefixOf]
  exact ⟨h, by rw [h]; exact List.mem_singleton.mpr rfl⟩

/-- C5 (amended): in the client block scanner `convertContentToNodes`, blank
lines are skipped and the resulting document never contains a top-level
LINE_BREAK node (the markdown-service scanner instead emits one LINE_BREAK
per blank line). -/
theorem convertContentToNodes_no_lineBreak (content : String) :
    Node.lineBreak ∉ convertContentToNodes content := by
  unfold convertContentToNodes
  split
  · simp
  · exact convLines_no_lineBreak _

/-! ### Claim C4: task-list classification -/

/-- C4: `"- [x] done\n- [ ] todo"` parses to two TASK_LIST_ITEM nodes with
`complete = true, false` and indent 0; in general, a line matching
`^(\s*)- \[([ xX])\] (.*)` is classified as a TASK_LIST_ITEM whose indent
is `floor(leadingSpaces / 2)` and whose `complete` flag is true exactly
when the checkbox character is `x` or `X`. -/
theorem taskListItem_classification :
    (parseMarkdownToNodes "- [x] done\n- [ ] todo" =
      [Node.taskListItem 0 true [Node.text "done"],
       Node.taskListItem 0 false [Node.text "todo"]]) ∧
    ∀ (ws content : List Char) (c : Char),
      (∀ x ∈ ws, isJSSpace x = true) → '\n' ∉ ws → '\n' ∉ content →
      (c = ' ' ∨ c = 'x' ∨ c = 'X') →
      parseMarkdownToNodes ⟨ws ++ '-' :: ' ' :: '[' :: c :: ']' :: ' ' :: content⟩ =
        [Node.taskListItem (ws.length / 2) (c = 'x' || c = 'X') [Node.text ⟨content⟩]] := by
  constructor
  · show pmLines (splitNl "- [x] done\n- [ ] todo".data) = _
    simp +decide [pmLines, fenceLine, trimJS, taskMatch, unordMatch, ordMatch, headMatch,
      hasCodeSpan, List.isPrefixOf, splitNl, isJSSpace]
  · intro ws content c hws hwsn hcn hc
    have hcnl : c ≠ '\n' := by rcases hc with h | h | h <;> subst h <;> decide
    have hnl : '\n' ∉ (ws ++ '-' :: ' ' :: '[' :: c :: ']' :: ' ' :: content) := by
      intro hmem
      rcases List.mem_append.mp hmem with h | h
      · exact hwsn h
      · simp only [List.mem_cons] at h
        rcases h with h | h | h | h | h | h | h
        · exact absurd h.symm (by decide)
        · exact absurd h.symm (by decide)
        · exact absurd h.symm (by decide)
        · exact hcnl h.symm
        · exact absurd h.symm (by decide)
        · exact absurd h.symm (by decide)
        · exact hcn h
    show pmLines (splitNl (ws ++ '-' :: ' ' :: '[' :: c :: ']' :: ' ' :: content)) = _
    rw [splitNl_no_nl _ hnl]
    rw [pmLines.eq_def]
    simp only
    rw [if_neg (by rw [fenceLine_of_head ws '-' _ hws (by decide) (by decide)]; simp)]
    rw [taskMatch_mk ws content c hws hc]
    simp only [List.singleton_append]
    rw [show pmLines [] = [] from by simp [pmLines]]

/-- C4 witness: the general classification rule applied at the concrete
line `"  - [X] hi"`. -/
theorem taskListItem_classification_witness :
    (∀ x ∈ ("  ".data : List Char), isJSSpace x = true) ∧
    ('X' = ' ' ∨ 'X' = 'x' ∨ 'X' = 'X') ∧
    parseMarkdownToNodes ⟨"  ".data ++ '-' :: ' ' :: '[' :: 'X' :: ']' :: ' ' :: "hi".data⟩ =
      [Node.taskListItem ("  ".data.length / 2) ('X' = 'x' || 'X' = 'X') [Node.text ⟨"hi".data⟩]] :=
  ⟨by decide, by decide,
    taskListItem_classification.2 "  ".data "hi".data 'X'
      (by decide) (by decide) (by decide) (by decide)⟩

/-! ### Claim C10: agreement of the two block scanners -/

theorem lineSpans_noMatches (l : List Char)
    (ht : (tagAux 0 none l).isEmpty = true) (hk : (linkAux 0 l).isEmpty = true)
    (hne : l ≠ []) : (lineSpans l).map (·.1) = [Node.text ⟨l⟩] := by
  have h1 : tagAux 0 none l = [] := by simpa using ht
  have h2 : linkAux 0 l = [] := by simpa using hk
  have hm : mergedMatches l = [] := by
    unfold mergedMatches
    rw [h1, h2]
    rfl
  have hlen : 0 < l.length := List.length_pos.mpr hne
  unfold lineSpans
  rw [hm]
  rw [show buildAux l 0 [] =
    (if 0 < l.length then
      (if (subList l 0 l.length).isEmpty then []
       else [(Node.text ⟨subList l 0 l.length⟩, 0, l.length)])
     else []) from rfl]
  rw [if_pos hlen]
  have hsub : subList l 0 l.length = l := by
    unfold subList
    simp
  rw [hsub]
  simp [List.isEmpty_iff, hne]

/-- C10 counterexample: the two block scanners disagree already on the
empty input — the client returns no nodes, the markdown service returns a
LINE_BREAK node. -/
theorem scanners_disagree_on_empty :
    convertContentToNodes "" = [] ∧
    convertContentToNodes "" ≠ parseMarkdownToNodes "" := by
  have h1 : convertContentToNodes "" = [] := by
    unfold convertContentToNodes
    rw [if_pos (by decide)]
  have h2 : parseMarkdownToNodes "" = [Node.lineBreak] := by
    show pmLines [[]] = [Node.lineBreak]
    simp [pmLines, fenceLine, trimJS, taskMatch, unordMatch, ordMatch, headMatch,
      hasCodeSpan, List.isPrefixOf]
  refine ⟨h1, ?_⟩
  rw [h1, h2]
  simp

/-- C10 (amended): the two block scanners agree on single-line texts that
are plain for both of them (non-blank, not a fence/task/list/heading line,
no inline code span and no tag or autolink match): both produce one
PARAGRAPH holding one TEXT node with the whole line.  On other inputs they
diverge, as the counterexample shows. -/
theorem scanners_agree_on_plain_line (l : List Char) (hnl : '\n' ∉ l)
    (hp : plainBothB l = true) :
    convertContentToNodes ⟨l⟩ = [Node.paragraph [Node.text ⟨l⟩]] ∧
    parseMarkdownToNodes ⟨l⟩ = [Node.paragraph [Node.text ⟨l⟩]] := by
  simp only [plainBothB, plainOrBlankB, Bool.and_eq_true, Bool.not_eq_true',
    Option.isNone_iff_eq_none, List.isEmpty_iff] at hp
  obtain ⟨⟨⟨htrim, hplain⟩, htag⟩, hlink⟩ := hp
  obtain ⟨⟨⟨⟨⟨hfence, htask⟩, hunord⟩, hord⟩, hhead⟩, hcs⟩ := hplain
  have hlne : l ≠ [] := by
    intro h
    subst h
    simp [trimJS] at htrim
  have hspan : (lineSpans l).map (·.1) = [Node.text ⟨l⟩] :=
    lineSpans_noMatches l (by simp [htag]) (by simp [hlink]) hlne
  constructor
  · show (if (trimJS l).isEmpty then [] else convLines (splitNl l)) = _
    rw [if_neg (by simpa using htrim)]
    rw [splitNl_no_nl _ hnl]
    rw [convLines.eq_def]
    simp only
    rw [dif_neg (by simp [hfence]), dif_neg (by simpa using htrim)]
    have hpc : paraCond l = true := by
      simp [paraCond, hfence, htrim]
    rw [List.takeWhile_cons_of_pos hpc, List.dropWhile_cons_of_pos hpc]
    simp only [List.takeWhile_nil, List.dropWhile_nil]
    rw [show convLines [] = [] from by simp [convLines]]
    simp only [List.map_cons, List.map_nil, interBreak, hspan]
    simp
  · show pmLines (splitNl l) = _
    rw [splitNl_no_nl _ hnl]
    rw [pmLines.eq_def]
    simp only
    rw [if_neg (by simp [hfence]), htask, hunord, hord, hhead]
    simp only
    rw [if_neg (by simp [hcs]), if_pos (by simpa using htrim)]
    rw [show pmLines [] = [] from by simp [pmLines]]
    simp

/-- C10 witness: the agreement theorem applied at the line `"hello"`. -/
theorem scanners_agree_on_plain_line_witness :
    plainBothB "hello".data = true ∧
    convertContentToNodes ⟨"hello".data⟩ = [Node.paragraph [Node.text ⟨"hello".data⟩]] := by
  have hp : plainBothB "hello".data = true := by
    simp +decide [plainBothB, plainOrBlankB, fenceLine, trimJS, taskMatch, unordMatch,
      ordMatch, headMatch, hasCodeSpan, tagAux, linkAux, linkPrefixLen, List.isPrefixOf,
      isJSSpace, isTagChar, isDigitChar]
  exact ⟨hp, (scanners_agree_on_plain_line "hello".data (by decide) hp).1⟩

theorem startsLink_iff (cs : List Char) :
    startsLink cs = true ↔
    ∃ c rest, (cs = "http://".data ++ c :: rest ∨ cs = "https://".data ++ c :: rest) ∧
      isJSSpace c = false := by
  unfold startsLink
  by_cases h8 : (("https://".data).isPrefixOf cs : Bool) = true
  · have hp : linkPrefixLen cs = some 8 := by
      unfold linkPrefixLen
      rw [if_pos h8]
    rw [hp]
    dsimp only
    obtain ⟨t, ht⟩ := List.isPrefixOf_iff_prefix.mp h8
    subst ht
    rw [List.drop_left' (show ("https://".data).length = 8 from rfl)]
    constructor
    · intro h
      match t, h with
      | c :: rest, h =>
        exact ⟨c, rest, Or.inr rfl, by simpa using h⟩
    · rintro ⟨c, rest, hor, hc⟩
      rcases hor with h | h
      · exfalso
        simp [List.cons_append, List.cons.injEq] at h
      · have : t = c :: rest := List.append_cancel_left h
        subst this
        simpa using hc
  · by_cases h7 : (("http://".data).isPrefixOf cs : Bool) = true
    · have hp : linkPrefixLen cs = some 7 := by
        unfold linkPrefixLen
        rw [if_neg h8, if_pos h7]
      rw [hp]
      dsimp only
      obtain ⟨t, ht⟩ := List.isPrefixOf_iff_prefix.mp h7
      subst ht
      rw [List.drop_left' (show ("http://".data).length = 7 from rfl)]
      constructor
      · intro h
        match t, h with
        | c :: rest, h =>
          exact ⟨c, rest, Or.inl rfl, by simpa using h⟩
      · rintro ⟨c, rest, hor, hc⟩
        rcases hor with h | h
        · have : t = c :: rest := List.append_cancel_left h
          subst this
          simpa using hc
        · exfalso
          apply h8
          rw [h]
          exact List.isPrefixOf_iff_prefix.mpr ⟨c :: rest, rfl⟩
    · have hp : linkPrefixLen cs = none := by
        unfold linkPrefixLen
        rw [if_neg h8, if_neg h7]
      rw [hp]
      dsimp only
      simp only [Bool.false_eq_true, false_iff]
      rintro ⟨c, rest, hor, hc⟩
      rcases hor with h | h
      · exact h7 (by rw [h]; exact List.isPrefixOf_iff_prefix.mpr ⟨c :: rest, rfl⟩)
      · exact h8 (by rw [h]; exact List.isPrefixOf_iff_prefix.mpr ⟨c :: rest, rfl⟩)

theorem hasLinkB_iff (cs : List Char) :
    hasLinkB cs = true ↔
    ∃ pre c rest, (cs = pre ++ "http://".data ++ c :: rest ∨
                   cs = pre ++ "https://".data ++ c :: rest) ∧
      isJSSpace c = false := by
  induction cs with
  | nil =>
    simp only [hasLinkB, Bool.false_eq_true, false_iff]
    rintro ⟨pre, c, rest, hor, -⟩
    rcases hor with h | h <;> simp at h
  | cons a tail ih =>
    rw [show hasLinkB (a :: tail) = (startsLink (a :: tail) || hasLinkB tail) from rfl]
    rw [Bool.or_eq_true]
    constructor
    · rintro (h | h)
      · obtain ⟨c, rest, hor, hc⟩ := (startsLink_iff (a :: tail)).mp h
        exact ⟨[], c, rest, by simpa using hor, hc⟩
      · obtain ⟨pre, c, rest, hor, hc⟩ := ih.mp h
        refine ⟨a :: pre, c, rest, ?_, hc⟩
        rcases hor with h1 | h1
        · exact Or.inl (by rw [List.cons_append, List.cons_append, h1])
        · exact Or.inr (by rw [List.cons_append, List.cons_append, h1])
    · rintro ⟨pre, c, rest, hor, hc⟩
      match pre, hor with
      | [], hor =>
        left
        refine (startsLink_iff (a :: tail)).mpr ⟨c, rest, ?_, hc⟩
        simpa using hor
      | a' :: pre', hor =>
        right
        refine ih.mpr ⟨pre', c, rest, ?_, hc⟩
        rcases hor with h1 | h1
        · rw [List.cons_append, List.cons_append] at h1
          exact Or.inl (List.cons.injEq _ _ _ _ ▸ h1 |>.2 ▸ rfl)
        · rw [List.cons_append, List.cons_append] at h1
          exact Or.inr (List.cons.injEq _ _ _ _ ▸ h1 |>.2 ▸ rfl)


/-! ### Claim C8: the property classifier -/

/-- C8: the classifier scenario `"check out https://example.com #work"`
yields `hasLink = true`, `hasTaskList = false`, `hasCode = false`; and in
general `hasLink` is true exactly when the text contains `http://` or
`https://` followed by at least one non-whitespace character. -/
theorem classifier_scenario_and_hasLink :
    (calculateMemoProperties "check out https://example.com #work" =
      (true, false, false, false)) ∧
    ∀ content : String,
      (hasLinkB content.data = true ↔
        ∃ pre c rest, (content.data = pre ++ "http://".data ++ c :: rest ∨
                       content.data = pre ++ "https://".data ++ c :: rest) ∧
          isJSSpace c = false) :=
  ⟨by decide, fun content => hasLinkB_iff content.data⟩

/-! ### Serializer erasure lemmas -/

theorem extractText_eraseInline (ch : List Node) :
    extractText (eraseInline ch) = extractText ch := by
  induction ch with
  | nil => rfl
  | cons n rest ih =>
    cases n with
    | tag s => simpa [eraseInline, extractText, extractOne, List.filter_cons] using ih
    | autoLink s => simpa [eraseInline, extractText, extractOne, List.filter_cons] using ih
    | text s => simp only [eraseInline, List.filter_cons] at ih ⊢; simp only [extractText] at ih; simp [extractText, extractOne, ih]
    | code s => simp only [eraseInline, List.filter_cons] at ih ⊢; simp only [extractText] at ih; simp [extractText, extractOne, ih]
    | lineBreak => simp only [eraseInline, List.filter_cons] at ih ⊢; simp only [extractText] at ih; simp [extractText, extractOne, ih]
    | paragraph c => simp only [eraseInline, List.filter_cons] at ih ⊢; simp only [extractText] at ih; simp [extractText, extractOne, ih]
    | codeBlock a b => simp only [eraseInline, List.filter_cons] at ih ⊢; simp only [extractText] at ih; simp [extractText, extractOne, ih]
    | heading a b => simp only [eraseInline, List.filter_cons] at ih ⊢; simp only [extractText] at ih; simp [extractText, extractOne, ih]
    | unorderedListItem a b => simp only [eraseInline, List.filter_cons] at ih ⊢; simp only [extractText] at ih; simp [extractText, extractOne, ih]
    | orderedListItem a b c => simp only [eraseInline, List.filter_cons] at ih ⊢; simp only [extractText] at ih; simp [extractText, extractOne, ih]
    | taskListItem a b c => simp only [eraseInline, List.filter_cons] at ih ⊢; simp only [extractText] at ih; simp [extractText, extractOne, ih]

theorem restoreLines_eraseTagsLinks (nodes : List Node) :
    (eraseTagsLinks nodes).flatMap restoreLines = nodes.flatMap restoreLines := by
  induction nodes with
  | nil => rfl
  | cons n rest ih =>
    cases n with
    | tag s => simpa [eraseTagsLinks, List.filter_cons, restoreLines] using ih
    | autoLink s => simpa [eraseTagsLinks, List.filter_cons, restoreLines] using ih
    | text s => simp only [eraseTagsLinks, List.filter_cons] at ih ⊢; simp [restoreLines, eraseBlock, ih]
    | code s => simp only [eraseTagsLinks, List.filter_cons] at ih ⊢; simp [restoreLines, eraseBlock, ih]
    | lineBreak => simp only [eraseTagsLinks, List.filter_cons] at ih ⊢; simp [restoreLines, eraseBlock, ih]
    | paragraph c =>
      simp only [eraseTagsLinks, List.filter_cons] at ih ⊢
      simp [restoreLines, eraseBlock, extractText_eraseInline, ih]
    | codeBlock a b => simp only [eraseTagsLinks, List.filter_cons] at ih ⊢; simp [restoreLines, eraseBlock, ih]
    | heading a b =>
      simp only [eraseTagsLinks, List.filter_cons] at ih ⊢
      simp [restoreLines, eraseBlock, extractText_eraseInline, ih]
    | unorderedListItem a b =>
      simp only [eraseTagsLinks, List.filter_cons] at ih ⊢
      simp [restoreLines, eraseBlock, extractText_eraseInline, ih]
    | orderedListItem a b c =>
      simp only [eraseTagsLinks, List.filter_cons] at ih ⊢
      simp [restoreLines, eraseBlock, extractText_eraseInline, ih]
    | taskListItem a b c =>
      simp only [eraseTagsLinks, List.filter_cons] at ih ⊢
      simp [restoreLines, eraseBlock, extractText_eraseInline, ih]

/-! ### Claim C7: the serializer drops TAG and AUTO_LINK payloads -/

/-- C7: TAG and AUTO_LINK inline nodes contribute no characters to the
serialized output — both in `extractTextFromChildren` (they carry neither a
direct `children` array nor a `textNode` payload, so the default branch
emits nothing) and at the top level of `restoreNodesToMarkdown`; erasing
every TAG and AUTO_LINK node from a document leaves the serialized text
unchanged. -/
theorem tagAutoLink_serialize_nothing :
    (∀ s, extractOne (Node.tag s) = [] ∧ extractOne (Node.autoLink s) = [] ∧
      restoreLines (Node.tag s) = [] ∧ restoreLines (Node.autoLink s) = []) ∧
    ∀ nodes, restoreNodesToMarkdown (eraseTagsLinks nodes) = restoreNodesToMarkdown nodes := by
  constructor
  · intro s
    exact ⟨rfl, rfl, rfl, rfl⟩
  · intro nodes
    unfold restoreNodesToMarkdown
    rw [restoreLines_eraseTagsLinks]

theorem mem_of_mem_trimJS (cs : List Char) (c : Char) (h : c ∈ trimJS cs) : c ∈ cs := by
  unfold trimJS at h
  rw [List.mem_reverse] at h
  have h1 := (List.dropWhile_sublist isJSSpace).mem h
  rw [List.mem_reverse] at h1
  exact (List.dropWhile_sublist isJSSpace).mem h1

theorem backtick_of_fence (l : List Char) (h : fenceLine l = true) : '`' ∈ l := by
  unfold fenceLine at h
  obtain ⟨t, ht⟩ := List.isPrefixOf_iff_prefix.mp h
  apply mem_of_mem_trimJS
  rw [← ht]
  simp

/-! ### Claim C6: totality and unterminated fences -/

/-- C6: both block scanners are total functions — every input string parses
to some document — and when an opening fence is never closed, the resulting
single CODE_BLOCK absorbs all remaining lines and the parse still
succeeds. -/
theorem parse_total_and_unterminated_fence :
    (∀ content : String, ∃ doc : List Node, convertContentToNodes content = doc ∧
       ∃ doc2 : List Node, parseMarkdownToNodes content = doc2) ∧
    ∀ (l : List Char) (rest : List (List Char)),
      fenceLine l = true → (∀ x ∈ rest, fenceLine x = false) →
      '\n' ∉ l → (∀ x ∈ rest, '\n' ∉ x) →
      convertContentToNodes ⟨joinNl (l :: rest)⟩ =
        [Node.codeBlock ⟨clientLang l⟩ ⟨joinQuirk rest⟩] ∧
      parseMarkdownToNodes ⟨joinNl (l :: rest)⟩ =
        [Node.codeBlock ⟨(trimJS l).drop 3⟩ ⟨joinNl rest⟩] := by
  constructor
  · intro content
    exact ⟨_, rfl, _, rfl⟩
  · intro l rest hf hrest hnl hrnl
    have hsplit : splitNl (joinNl (l :: rest)) = l :: rest := by
      apply splitNl_joinNl _ (by simp)
      intro x hx
      rcases List.mem_cons.mp hx with h | h
      · subst h; exact hnl
      · exact hrnl x h
    have hbt : '`' ∈ joinNl (l :: rest) := by
      have hbl : '`' ∈ l := backtick_of_fence l hf
      cases rest with
      | nil => exact hbl
      | cons r rs =>
        rw [show joinNl (l :: r :: rs) = l ++ '\n' :: joinNl (r :: rs) from rfl]
        exact List.mem_append.mpr (Or.inl hbl)
    have htrim : ¬(trimJS (joinNl (l :: rest))).isEmpty = true := by
      rw [List.isEmpty_iff]
      intro hemp
      have := (trimJS_eq_nil_iff _).mp hemp '`' hbt
      simp [isJSSpace] at this
    have htake : rest.takeWhile (fun x => !fenceLine x) = rest := by
      have hd : rest.dropWhile (fun x => !fenceLine x) = [] :=
        List.dropWhile_eq_nil_iff.mpr (fun x hx => by simp [hrest x hx])
      have h2 : rest.takeWhile (fun x => !fenceLine x) ++
          rest.dropWhile (fun x => !fenceLine x) = rest :=
        List.takeWhile_append_dropWhile _ _
      rw [hd, List.append_nil] at h2
      exact h2
    have hdrop : rest.dropWhile (fun x => !fenceLine x) = [] :=
      List.dropWhile_eq_nil_iff.mpr (fun x hx => by simp [hrest x hx])
    constructor
    · show (if (trimJS (joinNl (l :: rest))).isEmpty then []
            else convLines (splitNl (joinNl (l :: rest)))) = _
      rw [if_neg htrim, hsplit]
      rw [convLines.eq_def]
      simp only
      rw [dif_pos hf, htake, hdrop]
      rw [show convLines (List.drop 1 ([] : List (List Char))) = [] from by simp [convLines]]
    · show pmLines (splitNl (joinNl (l :: rest))) = _
      rw [hsplit]
      rw [pmLines.eq_def]
      simp only
      rw [if_pos hf, htake, hdrop]
      rw [show pmLines (List.drop 1 ([] : List (List Char))) = [] from by simp [pmLines]]

/-- C6 witness: the unterminated-fence clause applied at the concrete text
`"```js\nfoo"`. -/
theorem parse_total_and_unterminated_fence_witness :
    fenceLine "```js".data = true ∧
    convertContentToNodes ⟨joinNl ["```js".data, "foo".data]⟩ =
      [Node.codeBlock ⟨clientLang "```js".data⟩ ⟨joinQuirk ["foo".data]⟩] :=
  ⟨by decide,
    (parse_total_and_unterminated_fence.2 "```js".data ["foo".data]
      (by decide) (by decide) (by decide) (by decide)).1⟩

/-! ### Claim C3: paragraph round trip -/

theorem blank_line_matches (l : List Char) (h : ∀ c ∈ l, isJSSpace c = true) :
    taskMatch l = none ∧ unordMatch l = none ∧ ordMatch l = none ∧
    headMatch l = none ∧ hasCodeSpan l = false ∧ fenceLine l = false := by
  have hdw : l.dropWhile isJSSpace = [] :=
    List.dropWhile_eq_nil_iff.mpr (fun x hx => h x hx)
  refine ⟨?_, ?_, ?_, ?_, ?_, ?_⟩
  · unfold taskMatch
    rw [hdw]
  · unfold unordMatch
    rw [hdw]
  · unfold ordMatch
    rw [hdw]
    simp
  · unfold headMatch
    cases l with
    | nil => rfl
    | cons c rest =>
      have hc : isJSSpace c = true := h c (List.mem_cons_self _ _)
      have hcn : ¬(c = '#') := by
        intro hh
        subst hh
        simp [isJSSpace] at hc
      rw [List.takeWhile_cons_of_neg (by simpa using hcn)]
      simp
  · induction l with
    | nil => rfl
    | cons c rest ih =>
      have hc : isJSSpace c = true := h c (List.mem_cons_self _ _)
      have hcn : ¬(c = '`') := by
        intro hh
        subst hh
        simp [isJSSpace] at hc
      rw [show hasCodeSpan (c :: rest) =
        ((c = '`' && !((rest.takeWhile (fun x => !(x = '`'))).isEmpty) &&
          !((rest.dropWhile (fun x => !(x = '`'))).isEmpty)) || hasCodeSpan rest) from rfl]
      rw [ih (fun x hx => h x (List.mem_cons_of_mem c hx))
          (List.dropWhile_eq_nil_iff.mpr (fun x hx => h x (List.mem_cons_of_mem c hx)))]
      simp [hcn]
  · unfold fenceLine
    rw [(trimJS_eq_nil_iff l).mpr h]
    rfl

theorem pmLines_plain (lines : List (List Char))
    (h : ∀ l ∈ lines, (l.isEmpty || (!(trimJS l).isEmpty && plainOrBlankB l)) = true) :
    pmLines lines = lines.map (fun l =>
      if l.isEmpty then Node.lineBreak else Node.paragraph [Node.text ⟨l⟩]) := by
  induction lines with
  | nil => simp [pmLines]
  | cons l rest ih =>
    have hl := h l (List.mem_cons_self _ _)
    have hrest := ih (fun x hx => h x (List.mem_cons_of_mem l hx))
    rw [pmLines.eq_def]
    simp only
    by_cases hemp : l = []
    · subst hemp
      rw [if_neg (by decide)]
      rw [show taskMatch [] = none from rfl, show unordMatch [] = none from rfl,
          show ordMatch [] = none from rfl, show headMatch [] = none from rfl]
      simp only
      rw [if_neg (by decide), if_neg (by simp [trimJS])]
      rw [hrest]
      simp
    · have hl2 : (!(trimJS l).isEmpty && plainOrBlankB l) = true := by
        rcases Bool.or_eq_true _ _ |>.mp hl with h1 | h1
        · exact absurd (List.isEmpty_iff.mp h1) hemp
        · exact h1
      obtain ⟨htrim, hplain⟩ := Bool.and_eq_true _ _ |>.mp hl2
      obtain ⟨⟨⟨⟨⟨hfence, htask⟩, hunord⟩, hord⟩, hhead⟩, hcs⟩ := by
        simpa only [plainOrBlankB, Bool.and_eq_true, Bool.not_eq_true',
          Option.isNone_iff_eq_none] using hplain
      rw [if_neg (by simp [hfence]), htask, hunord, hord, hhead]
      simp only
      rw [if_neg (by simp [hcs]), if_pos (by simpa using htrim)]
      rw [hrest]
      simp [List.isEmpty_iff, hemp]

theorem restore_plain (lines : List (List Char)) :
    (lines.map (fun l =>
      if l.isEmpty then Node.lineBreak else Node.paragraph [Node.text ⟨l⟩])).flatMap
        restoreLines = lines.map id := by
  induction lines with
  | nil => rfl
  | cons l rest ih =>
    simp only [List.map_cons, List.flatMap_cons, ih]
    by_cases hemp : l = []
    · subst hemp
      simp [restoreLines]
    · rw [if_neg (by simpa [List.isEmpty_iff] using hemp)]
      simp [restoreLines, extractText, extractOne]

/-- C3 counterexample: through the client scanner the round trip fails
already on the plain two-line paragraph text `"a\nb"` — the LINE_BREAK
child serializes to nothing, so the text comes back as `"ab"`. -/
theorem paragraph_roundtrip_client_fails :
    restoreNodesToMarkdown (convertContentToNodes "a\nb") = "ab" ∧
    ("ab" : String) ≠ "a\nb" := by
  constructor
  · have h1 : convertContentToNodes "a\nb" =
        [Node.paragraph [Node.text "a", Node.lineBreak, Node.text "b"]] := by
      show (if (trimJS "a\nb".data).isEmpty then [] else convLines (splitNl "a\nb".data)) = _
      rw [if_neg (by decide)]
      simp +decide [convLines, splitNl, fenceLine, trimJS, paraCond, interBreak,
        lineSpans, mergedMatches, tagAux, linkAux, linkPrefixLen, buildAux, subList,
        sortByStart, insertByStart, tagFlush, List.isPrefixOf, isJSSpace, isTagChar]
    rw [h1]
    rfl
  · decide

/-- C3 (amended): the round trip holds through the markdown-service
pipeline: for texts consisting only of plain lines (no fences, tasks,
lists, headings or inline code) and empty lines, every plain line becomes
its own single-line paragraph and
`restoreNodesToMarkdown (parseMarkdownToNodes text)` reproduces the text
exactly.  Through `convertContentToNodes` the round trip fails (see the
counterexample): line breaks inside multi-line paragraphs and blank lines
are lost. -/
theorem paragraph_roundtrip (lines : List (List Char)) (hne : lines ≠ [])
    (hnl : ∀ l ∈ lines, '\n' ∉ l)
    (h : ∀ l ∈ lines, (l.isEmpty || (!(trimJS l).isEmpty && plainOrBlankB l)) = true) :
    restoreNodesToMarkdown (parseMarkdownToNodes ⟨joinNl lines⟩) = ⟨joinNl lines⟩ := by
  show restoreNodesToMarkdown (pmLines (splitNl (joinNl lines))) = _
  rw [splitNl_joinNl lines hne hnl]
  rw [pmLines_plain lines h]
  unfold restoreNodesToMarkdown
  rw [restore_plain]
  simp


/-- C3 witness: the round trip applied at the text `"a\n\nb"` (two plain
paragraph lines separated by a blank line). -/
theorem paragraph_roundtrip_witness :
    (["a".data, [], "b".data] : List (List Char)) ≠ [] ∧
    restoreNodesToMarkdown (parseMarkdownToNodes ⟨joinNl ["a".data, [], "b".data]⟩) =
      ⟨joinNl ["a".data, [], "b".data]⟩ :=
  ⟨by decide,
    paragraph_roundtrip ["a".data, [], "b".data] (by decide) (by decide) (by decide)⟩

/-! ### Claim C2: the inline coverage invariant -/

theorem tagAux_wf (cs : List Char) : ∀ (i : Nat) (st : Option (Nat × List Char)),
    stInv i st → ∀ m ∈ tagAux i st cs, m.start < m.stop ∧ m.stop ≤ i + cs.length := by
  induction cs with
  | nil =>
    intro i st hst m hm
    match st with
    | none => simp [tagAux] at hm
    | some (s, name) =>
      simp only [tagAux, tagFlush] at hm
      split at hm
      · simp at hm
      · rename_i hname
        rw [List.mem_singleton] at hm
        subst hm
        simp only [stInv] at hst
        have : 0 < name.length := List.length_pos.mpr (by simpa using hname)
        simp only [List.length_nil]
        omega
  | cons c rest ih =>
    intro i st hst m hm
    match st with
    | none =>
      rw [show tagAux i none (c :: rest) =
        (if c = '#' then tagAux (i + 1) (some (i, [])) rest
         else tagAux (i + 1) none rest) from rfl] at hm
      split at hm
      · have := ih (i + 1) (some (i, [])) (by simp [stInv]) m hm
        simp only [List.length_cons]
        omega
      · have := ih (i + 1) none trivial m hm
        simp only [List.length_cons]
        omega
    | some (s, name) =>
      rw [show tagAux i (some (s, name)) (c :: rest) =
        (if isTagChar c then tagAux (i + 1) (some (s, name ++ [c])) rest
         else tagFlush s i name ++
          (if c = '#' then tagAux (i + 1) (some (i, [])) rest
           else tagAux (i + 1) none rest)) from rfl] at hm
      simp only [stInv] at hst
      split at hm
      · have := ih (i + 1) (some (s, name ++ [c])) (by simp [stInv]; omega) m hm
        simp only [List.length_cons]
        omega
      · rcases List.mem_append.mp hm with h1 | h1
        · unfold tagFlush at h1
          split at h1
          · simp at h1
          · rename_i hname
            rw [List.mem_singleton] at h1
            subst h1
            have : 0 < name.length := List.length_pos.mpr (by simpa using hname)
            simp only [List.length_cons]
            omega
        · split at h1
          · have := ih (i + 1) (some (i, [])) (by simp [stInv]) m h1
            simp only [List.length_cons]
            omega
          · have := ih (i + 1) none trivial m h1
            simp only [List.length_cons]
            omega

theorem linkAux_wf (cs : List Char) (i : Nat) :
    ∀ m ∈ linkAux i cs, m.start < m.stop ∧ m.stop ≤ i + cs.length := by
  induction i, cs using linkAux.induct with
  | case1 i => simp [linkAux]
  | case2 i c rest hp ih =>
    intro m hm
    unfold linkAux at hm
    rw [hp] at hm
    have := ih m hm
    simp only [List.length_cons]
    omega
  | case3 i c rest p hp run hrun ih =>
    intro m hm
    unfold linkAux at hm
    rw [hp] at hm
    dsimp only at hm
    have hrun2 : (List.takeWhile (fun ch => !isJSSpace ch)
        (List.drop p (c :: rest))).isEmpty = true := hrun
    rw [if_pos hrun2] at hm
    have := ih m hm
    simp only [List.length_cons]
    omega
  | case4 i c rest p hp run hrun ih =>
    intro m hm
    unfold linkAux at hm
    rw [hp] at hm
    dsimp only at hm
    have hrun2 : ¬(List.takeWhile (fun ch => !isJSSpace ch)
        (List.drop p (c :: rest))).isEmpty = true := hrun
    rw [if_neg hrun2] at hm
    have hp0 : 0 < p := linkPrefixLen_pos _ _ hp
    have hrun0 : 0 < run.length := List.length_pos.mpr (by simpa using hrun)
    have hple : p ≤ (c :: rest).length := by
      by_contra hcon
      have hdropnil : (c :: rest).drop p = [] := List.drop_eq_nil_of_le (by omega)
      have hrnil : run = [] := by
        rw [show run = ((c :: rest).drop p).takeWhile (fun ch => !isJSSpace ch) from rfl,
          hdropnil]
        rfl
      rw [hrnil] at hrun0
      simp at hrun0
    have hrle : run.length ≤ (c :: rest).length - p := by
      have h2 : run.length ≤ ((c :: rest).drop p).length :=
        (List.takeWhile_sublist _).length_le
      simpa [List.length_drop] using h2
    rcases List.mem_cons.mp hm with h1 | h1
    · subst h1
      refine ⟨?_, ?_⟩
      · show i < i + (p + run.length)
        omega
      · show i + (p + run.length) ≤ i + (c :: rest).length
        omega
    · have h2 := ih m h1
      simp only [List.length_drop] at h2
      exact ⟨h2.1, by omega⟩

theorem mem_insertByStart (m x : IMatch) (ms : List IMatch) :
    x ∈ insertByStart m ms ↔ x = m ∨ x ∈ ms := by
  induction ms with
  | nil => simp [insertByStart]
  | cons a rest ih =>
    unfold insertByStart
    split
    · simp
    · rw [List.mem_cons, ih, List.mem_cons]
      tauto

theorem mem_sortByStart (x : IMatch) (ms : List IMatch) :
    x ∈ sortByStart ms ↔ x ∈ ms := by
  induction ms with
  | nil => simp [sortByStart]
  | cons a rest ih =>
    unfold sortByStart
    rw [mem_insertByStart, ih, List.mem_cons]

theorem chainB_imp_chainFrom (ms : List IMatch) : ∀ (prev : Nat),
    (∀ b ∈ ms.head?, prev ≤ b.start) → chainB ms = true → chainFrom prev ms = true := by
  induction ms with
  | nil => intro prev _ _; rfl
  | cons m rest ih =>
    intro prev hhead hchain
    have h1 : prev ≤ m.start := hhead m rfl
    have htail : chainB rest = true ∧ ∀ b ∈ rest.head?, m.stop ≤ b.start := by
      cases rest with
      | nil => exact ⟨rfl, by simp⟩
      | cons b rs =>
        rw [show chainB (m :: b :: rs) =
          (decide (m.stop ≤ b.start) && chainB (b :: rs)) from rfl] at hchain
        obtain ⟨ha, hb⟩ := Bool.and_eq_true _ _ |>.mp hchain
        refine ⟨hb, ?_⟩
        intro x hx
        have hxb : b = x := by simpa using hx
        subst hxb
        simpa using ha
    rw [show chainFrom prev (m :: rest) =
      (decide (prev ≤ m.start) && chainFrom m.stop rest) from rfl]
    simp [h1, ih m.stop htail.2 htail.1]

theorem buildAux_covers (line : List Char) (ms : List IMatch) : ∀ (pos : Nat),
    pos ≤ line.length →
    (∀ m ∈ ms, m.start < m.stop ∧ m.stop ≤ line.length) →
    chainFrom pos ms = true →
    coversB pos ((buildAux line pos ms).map (fun t => (t.2.1, t.2.2))) line.length = true := by
  induction ms with
  | nil =>
    intro pos hpos _ _
    rw [show buildAux line pos [] =
      (if pos < line.length then
        (if (subList line pos line.length).isEmpty then []
         else [(Node.text ⟨subList line pos line.length⟩, pos, line.length)])
       else []) from rfl]
    by_cases h : pos < line.length
    · rw [if_pos h]
      have hne : ¬(subList line pos line.length).isEmpty = true := by
        rw [List.isEmpty_iff]
        unfold subList
        intro hh
        have := congrArg List.length hh
        simp only [List.length_take, List.length_drop, List.length_nil] at this
        omega
      rw [if_neg hne]
      simp [coversB, hpos]
    · rw [if_neg h]
      simp [coversB]
      omega
  | cons m rest ih =>
    intro pos hpos hwf hchain
    rw [show chainFrom pos (m :: rest) =
      (decide (pos ≤ m.start) && chainFrom m.stop rest) from rfl] at hchain
    obtain ⟨hfirst, hchain2⟩ := Bool.and_eq_true _ _ |>.mp hchain
    rw [decide_eq_true_eq] at hfirst
    have hm := hwf m (List.mem_cons_self _ _)
    have hrest : ∀ x ∈ rest, x.start < x.stop ∧ x.stop ≤ line.length :=
      fun x hx => hwf x (List.mem_cons_of_mem m hx)
    have hrec := ih m.stop hm.2 hrest hchain2
    rw [show buildAux line pos (m :: rest) =
      ((if pos < m.start then
        (if (subList line pos m.start).isEmpty then []
         else [(Node.text ⟨subList line pos m.start⟩, pos, m.start)])
       else []) ++
      (m.node, m.start, m.stop) :: buildAux line m.stop rest) from rfl]
    by_cases hgap : pos < m.start
    · rw [if_pos hgap]
      have hne : ¬(subList line pos m.start).isEmpty = true := by
        rw [List.isEmpty_iff]
        unfold subList
        intro hh
        have := congrArg List.length hh
        simp only [List.length_take, List.length_drop, List.length_nil] at this
        omega
      rw [if_neg hne]
      simp only [List.cons_append, List.nil_append, List.map_cons]
      rw [show coversB pos ((pos, m.start) :: (m.start, m.stop) ::
          (buildAux line m.stop rest).map (fun t => (t.2.1, t.2.2))) line.length =
        (pos == pos && decide (pos ≤ m.start) &&
          (m.start == m.start && decide (m.start ≤ m.stop) &&
            coversB m.stop ((buildAux line m.stop rest).map
              (fun t => (t.2.1, t.2.2))) line.length)) from rfl]
      simp only [beq_self_eq_true, Bool.true_and, Bool.and_eq_true, decide_eq_true_eq]
      exact ⟨by omega, by omega, hrec⟩
    · rw [if_neg hgap]
      simp only [List.nil_append, List.map_cons]
      rw [show coversB pos ((m.start, m.stop) ::
          (buildAux line m.stop rest).map (fun t => (t.2.1, t.2.2))) line.length =
        (m.start == pos && decide (pos ≤ m.stop) &&
          coversB m.stop ((buildAux line m.stop rest).map
            (fun t => (t.2.1, t.2.2))) line.length) from rfl]
      simp only [Bool.and_eq_true, decide_eq_true_eq, beq_iff_eq]
      exact ⟨⟨by omega, by omega⟩, hrec⟩

theorem covers_flatten (l : List Char) (spans : List (Nat × Nat)) : ∀ (pos : Nat),
    coversB pos spans l.length = true →
    (spans.map (fun se => subList l se.1 se.2)).flatten = l.drop pos := by
  induction spans with
  | nil =>
    intro pos h
    rw [show coversB pos [] l.length = (pos == l.length) from rfl] at h
    rw [beq_iff_eq] at h
    subst h
    simp [List.drop_length]
  | cons se rest ih =>
    intro pos h
    obtain ⟨s, e⟩ := se
    rw [show coversB pos ((s, e) :: rest) l.length =
      (s == pos && decide (pos ≤ e) && coversB e rest l.length) from rfl] at h
    simp only [Bool.and_eq_true, beq_iff_eq, decide_eq_true_eq] at h
    obtain ⟨⟨hs, hle⟩, hrest⟩ := h
    subst hs
    simp only [List.map_cons, List.flatten_cons]
    rw [ih e hrest]
    show subList l s e ++ l.drop e = l.drop s
    unfold subList
    have hd : l.drop e = (l.drop s).drop (e - s) := by
      rw [List.drop_drop]
      congr 1
      omega
    rw [hd]
    exact List.take_append_drop _ _

theorem mergedMatches_wf (l : List Char) :
    ∀ m ∈ mergedMatches l, m.start < m.stop ∧ m.stop ≤ l.length := by
  intro m hm
  unfold mergedMatches at hm
  rw [mem_sortByStart] at hm
  rcases List.mem_append.mp hm with h1 | h1
  · have := tagAux_wf l 0 none trivial m h1
    simpa using this
  · have := linkAux_wf l 0 m h1
    simpa using this

/-- C2 (amended): when the tag and autolink matches of a line are pairwise
disjoint (each match starts at or after the previous one's end in the
sorted order), the emitted spans are contiguous and non-overlapping and
their concatenated source extents reconstruct the line exactly.  Matches
can overlap — a hashtag inside a URL is reported by both scans — and then
the invariant fails, as the counterexample shows. -/
theorem inline_coverage (line : String)
    (h : chainB (mergedMatches line.data) = true) :
    coversB 0 (lineExtents line.data) line.data.length = true ∧
    ((lineExtents line.data).map (fun se => subList line.data se.1 se.2)).flatten =
      line.data := by
  have hwf := mergedMatches_wf line.data
  have hcf : chainFrom 0 (mergedMatches line.data) = true :=
    chainB_imp_chainFrom _ 0 (fun b _ => Nat.zero_le _) h
  have hcov := buildAux_covers line.data (mergedMatches line.data) 0
    (Nat.zero_le _) hwf hcf
  unfold lineExtents lineSpans
  by_cases hcs : (buildAux line.data 0 (mergedMatches line.data)).isEmpty = true
  · rw [if_pos hcs]
    constructor
    · simp [coversB]
    · simp [subList]
  · rw [if_neg hcs]
    refine ⟨hcov, ?_⟩
    have := covers_flatten line.data
      ((buildAux line.data 0 (mergedMatches line.data)).map (fun t => (t.2.1, t.2.2))) 0 hcov
    simpa using this


/-- C2 counterexample: on the line `"https://a/#b"` the autolink match
`[0, 12)` and the tag match `[10, 12)` overlap, the emitted spans repeat
the extent `[10, 12)`, and the coverage invariant is violated. -/
theorem inline_coverage_violated :
    lineExtents "https://a/#b".data = [(0, 12), (10, 12)] ∧
    coversB 0 (lineExtents "https://a/#b".data) "https://a/#b".data.length = false := by
  have h : lineExtents "https://a/#b".data = [(0, 12), (10, 12)] := by
    simp +decide [lineExtents, lineSpans, mergedMatches, tagAux, tagFlush, linkAux,
      linkPrefixLen, buildAux, subList, sortByStart, insertByStart, List.isPrefixOf,
      isJSSpace, isTagChar]
  refine ⟨h, ?_⟩
  rw [h]
  decide


/-- C2 witness: the coverage invariant applied at the concrete line
`"see #tag and https://x.co"`, whose matches are disjoint. -/
theorem inline_coverage_witness :
    chainB (mergedMatches "see #tag and https://x.co".data) = true ∧
    coversB 0 (lineExtents "see #tag and https://x.co".data)
      "see #tag and https://x.co".data.length = true := by
  have h : chainB (mergedMatches "see #tag and https://x.co".data) = true := by
    simp +decide [mergedMatches, tagAux, tagFlush, linkAux, linkPrefixLen,
      sortByStart, insertByStart, List.isPrefixOf, isJSSpace, isTagChar, chainB]
  exact ⟨h, (inline_coverage "see #tag and https://x.co" h).1⟩

/-! ### Claim C1: tag agreement between extractor and tokenizer -/

theorem matchTagNames_append (a b : List IMatch) :
    matchTagNames (a ++ b) = matchTagNames a ++ matchTagNames b := by
  unfold matchTagNames
  rw [List.flatMap_append]

theorem matchTagNames_tagFlush (s i : Nat) (n : List Char) :
    matchTagNames (tagFlush s i n) = if n.isEmpty then [] else [⟨n⟩] := by
  unfold tagFlush
  split
  · rfl
  · rfl

theorem tagAux_names_congr (cs : List Char) :
    ∀ (i j : Nat) (st st' : Option (Nat × List Char)), stName st = stName st' →
    matchTagNames (tagAux i st cs) = matchTagNames (tagAux j st' cs) := by
  induction cs with
  | nil =>
    intro i j st st' hst
    match st, st', hst with
    | none, none, _ => rfl
    | some (s, n), some (s', n'), hst =>
      have hn : n = n' := by simpa [stName] using hst
      subst hn
      rw [show tagAux i (some (s, n)) [] = tagFlush s i n from rfl,
        show tagAux j (some (s', n)) [] = tagFlush s' j n from rfl]
      rw [matchTagNames_tagFlush, matchTagNames_tagFlush]
  | cons c rest ih =>
    intro i j st st' hst
    match st, st', hst with
    | none, none, _ =>
      rw [show tagAux i none (c :: rest) =
        (if c = '#' then tagAux (i + 1) (some (i, [])) rest
         else tagAux (i + 1) none rest) from rfl,
        show tagAux j none (c :: rest) =
        (if c = '#' then tagAux (j + 1) (some (j, [])) rest
         else tagAux (j + 1) none rest) from rfl]
      split
      · exact ih (i + 1) (j + 1) _ _ (by simp [stName])
      · exact ih (i + 1) (j + 1) none none rfl
    | some (s, n), some (s', n'), hst =>
      have hn : n = n' := by simpa [stName] using hst
      subst hn
      rw [show tagAux i (some (s, n)) (c :: rest) =
        (if isTagChar c then tagAux (i + 1) (some (s, n ++ [c])) rest
         else tagFlush s i n ++
          (if c = '#' then tagAux (i + 1) (some (i, [])) rest
           else tagAux (i + 1) none rest)) from rfl,
        show tagAux j (some (s', n)) (c :: rest) =
        (if isTagChar c then tagAux (j + 1) (some (s', n ++ [c])) rest
         else tagFlush s' j n ++
          (if c = '#' then tagAux (j + 1) (some (j, [])) rest
           else tagAux (j + 1) none rest)) from rfl]
      split
      · exact ih (i + 1) (j + 1) _ _ (by simp [stName])
      · rw [matchTagNames_append, matchTagNames_append,
          matchTagNames_tagFlush, matchTagNames_tagFlush]
        congr 1
        split
        · exact ih (i + 1) (j + 1) _ _ (by simp [stName])
        · exact ih (i + 1) (j + 1) none none rfl

theorem tagAux_names_newline (a : List Char) : ∀ (i : Nat)
    (st : Option (Nat × List Char)) (b : List Char),
    matchTagNames (tagAux i st (a ++ '\n' :: b)) =
    matchTagNames (tagAux i st a) ++ matchTagNames (tagAux 0 none b) := by
  induction a with
  | nil =>
    intro i st b
    match st with
    | none =>
      rw [show ([] : List Char) ++ '\n' :: b = '\n' :: b from rfl]
      rw [show tagAux i none ('\n' :: b) = tagAux (i + 1) none b from by
        rw [show tagAux i none ('\n' :: b) =
          (if '\n' = '#' then tagAux (i + 1) (some (i, [])) b
           else tagAux (i + 1) none b) from rfl]
        rw [if_neg (by decide)]]
      rw [show tagAux i none [] = [] from rfl]
      rw [tagAux_names_congr b (i + 1) 0 none none rfl]
      rfl
    | some (s, n) =>
      rw [show ([] : List Char) ++ '\n' :: b = '\n' :: b from rfl]
      rw [show tagAux i (some (s, n)) ('\n' :: b) =
        (if isTagChar '\n' then tagAux (i + 1) (some (s, n ++ ['\n'])) b
         else tagFlush s i n ++
          (if '\n' = '#' then tagAux (i + 1) (some (i, [])) b
           else tagAux (i + 1) none b)) from rfl]
      rw [if_neg (by decide), if_neg (by decide)]
      rw [matchTagNames_append]
      rw [show tagAux i (some (s, n)) [] = tagFlush s i n from rfl]
      rw [tagAux_names_congr b (i + 1) 0 none none rfl]
  | cons c a' ih =>
    intro i st b
    rw [List.cons_append]
    match st with
    | none =>
      rw [show tagAux i none (c :: (a' ++ '\n' :: b)) =
        (if c = '#' then tagAux (i + 1) (some (i, [])) (a' ++ '\n' :: b)
         else tagAux (i + 1) none (a' ++ '\n' :: b)) from rfl,
        show tagAux i none (c :: a') =
        (if c = '#' then tagAux (i + 1) (some (i, [])) a'
         else tagAux (i + 1) none a') from rfl]
      split
      · rw [ih]
      · rw [ih]
    | some (s, n) =>
      rw [show tagAux i (some (s, n)) (c :: (a' ++ '\n' :: b)) =
        (if isTagChar c then tagAux (i + 1) (some (s, n ++ [c])) (a' ++ '\n' :: b)
         else tagFlush s i n ++
          (if c = '#' then tagAux (i + 1) (some (i, [])) (a' ++ '\n' :: b)
           else tagAux (i + 1) none (a' ++ '\n' :: b))) from rfl,
        show tagAux i (some (s, n)) (c :: a') =
        (if isTagChar c then tagAux (i + 1) (some (s, n ++ [c])) a'
         else tagFlush s i n ++
          (if c = '#' then tagAux (i + 1) (some (i, [])) a'
           else tagAux (i + 1) none a')) from rfl]
      split
      · rw [ih]
      · rw [matchTagNames_append, matchTagNames_append]
        split
        · rw [ih]
          rw [List.append_assoc]
        · rw [ih]
          rw [List.append_assoc]

theorem exists_first_nl (cs : List Char) (h : '\n' ∈ cs) :
    ∃ a b, cs = a ++ '\n' :: b ∧ '\n' ∉ a := by
  have hne : cs.dropWhile (fun c => !(c = '\n')) ≠ [] := by
    intro hnil
    have := List.dropWhile_eq_nil_iff.mp hnil '\n' h
    simp at this
  rcases hd : cs.dropWhile (fun c => !(c = '\n')) with _ | ⟨d, ds⟩
  · exact absurd hd hne
  · have hdnl : d = '\n' := by
      have h0 := List.head?_dropWhile_not (fun c => !(c = '\n')) cs
      rw [hd] at h0
      simpa using h0
    subst hdnl
    refine ⟨cs.takeWhile (fun c => !(c = '\n')), ds, ?_, ?_⟩
    · rw [show (cs.takeWhile (fun c => !(c = '\n')) ++ '\n' :: ds : List Char) =
        cs.takeWhile (fun c => !(c = '\n')) ++ cs.dropWhile (fun c => !(c = '\n')) from by
        rw [hd]]
      exact (List.takeWhile_append_dropWhile _ _).symm
    · intro hmem
      have := List.mem_takeWhile_imp hmem
      simp at this

theorem tagNames_split (cs : List Char) :
    matchTagNames (tagAux 0 none cs) = (splitNl cs).flatMap lineTagNames := by
  have H : ∀ (n : Nat) (cs : List Char), cs.length = n →
      matchTagNames (tagAux 0 none cs) = (splitNl cs).flatMap lineTagNames := by
    intro n
    induction n using Nat.strong_induction_on with
    | _ n ih =>
      intro cs hn
      by_cases hmem : '\n' ∈ cs
      · obtain ⟨a, b, hcs, hna⟩ := exists_first_nl cs hmem
        subst hcs
        rw [tagAux_names_newline a 0 none b]
        rw [splitNl_append a b hna]
        rw [List.flatMap_cons]
        congr 1
        have hblen : b.length < n := by
          rw [← hn]
          simp only [List.length_append, List.length_cons]
          omega
        exact ih b.length hblen b rfl
      · rw [splitNl_no_nl cs hmem]
        simp [lineTagNames]
  exact H cs.length cs rfl

theorem spaces_no_tags (cs : List Char) (h : ∀ c ∈ cs, isJSSpace c = true) :
    ∀ i, tagAux i none cs = [] := by
  induction cs with
  | nil => intro i; rfl
  | cons c rest ih =>
    intro i
    have hc : isJSSpace c = true := h c (List.mem_cons_self _ _)
    have hcn : ¬(c = '#') := by
      intro hh
      subst hh
      simp [isJSSpace] at hc
    rw [show tagAux i none (c :: rest) =
      (if c = '#' then tagAux (i + 1) (some (i, [])) rest
       else tagAux (i + 1) none rest) from rfl]
    rw [if_neg hcn]
    exact ih (fun x hx => h x (List.mem_cons_of_mem c hx)) (i + 1)

theorem buildAux_names (line : List Char) (ms : List IMatch) : ∀ (pos : Nat),
    inlineTagNames ((buildAux line pos ms).map (·.1)) = matchTagNames ms := by
  induction ms with
  | nil =>
    intro pos
    rw [show buildAux line pos [] =
      (if pos < line.length then
        (if (subList line pos line.length).isEmpty then []
         else [(Node.text ⟨subList line pos line.length⟩, pos, line.length)])
       else []) from rfl]
    split
    · split
      · rfl
      · rfl
    · rfl
  | cons m rest ih =>
    intro pos
    rw [show buildAux line pos (m :: rest) =
      ((if pos < m.start then
        (if (subList line pos m.start).isEmpty then []
         else [(Node.text ⟨subList line pos m.start⟩, pos, m.start)])
       else []) ++
      (m.node, m.start, m.stop) :: buildAux line m.stop rest) from rfl]
    rw [List.map_append, List.map_cons]
    rw [show inlineTagNames ((if pos < m.start then
        (if (subList line pos m.start).isEmpty then []
         else [(Node.text ⟨subList line pos m.start⟩, pos, m.start)])
       else []).map (·.1) ++ m.node ::
        (buildAux line m.stop rest).map (·.1)) =
      inlineTagNames ((if pos < m.start then
        (if (subList line pos m.start).isEmpty then []
         else [(Node.text ⟨subList line pos m.start⟩, pos, m.start)])
       else []).map (·.1)) ++
      inlineTagNames (m.node :: (buildAux line m.stop rest).map (·.1)) from by
      unfold inlineTagNames
      rw [List.flatMap_append]]
    have hgap : inlineTagNames ((if pos < m.start then
        (if (subList line pos m.start).isEmpty then []
         else [(Node.text ⟨subList line pos m.start⟩, pos, m.start)])
       else []).map (·.1)) = [] := by
      split
      · split
        · rfl
        · rfl
      · rfl
    rw [hgap, List.nil_append]
    rw [show inlineTagNames (m.node :: (buildAux line m.stop rest).map (·.1)) =
      (match m.node with | Node.tag s => [s] | _ => []) ++
      inlineTagNames ((buildAux line m.stop rest).map (·.1)) from rfl]
    rw [ih m.stop]
    rfl

theorem lineSpans_names (l : List Char) :
    inlineTagNames ((lineSpans l).map (·.1)) = matchTagNames (mergedMatches l) := by
  unfold lineSpans
  by_cases hcs : (buildAux l 0 (mergedMatches l)).isEmpty = true
  · rw [if_pos hcs]
    rw [← buildAux_names l (mergedMatches l) 0]
    rw [List.isEmpty_iff.mp hcs]
    rfl
  · rw [if_neg hcs]
    exact buildAux_names l (mergedMatches l) 0

theorem node_tag_mem (nm : String) (n : Node) :
    nm ∈ (match n with | Node.tag s => [s] | _ => ([] : List String)) ↔ n = Node.tag nm := by
  cases n <;> simp [eq_comm]

theorem mem_matchTagNames (nm : String) (ms : List IMatch) :
    nm ∈ matchTagNames ms ↔ ∃ m ∈ ms, m.node = Node.tag nm := by
  unfold matchTagNames
  rw [List.mem_flatMap]
  constructor
  · rintro ⟨m, hm, hmem⟩
    exact ⟨m, hm, (node_tag_mem nm m.node).mp hmem⟩
  · rintro ⟨m, hm, heq⟩
    exact ⟨m, hm, (node_tag_mem nm m.node).mpr heq⟩

theorem linkAux_no_tag (cs : List Char) (i : Nat) :
    ∀ m ∈ linkAux i cs, ∀ s, m.node ≠ Node.tag s := by
  induction i, cs using linkAux.induct with
  | case1 i => simp [linkAux]
  | case2 i c rest hp ih =>
    intro m hm
    unfold linkAux at hm
    rw [hp] at hm
    exact ih m hm
  | case3 i c rest p hp run hrun ih =>
    intro m hm
    unfold linkAux at hm
    rw [hp] at hm
    dsimp only at hm
    have hrun2 : (List.takeWhile (fun ch => !isJSSpace ch)
        (List.drop p (c :: rest))).isEmpty = true := hrun
    rw [if_pos hrun2] at hm
    exact ih m hm
  | case4 i c rest p hp run hrun ih =>
    intro m hm
    unfold linkAux at hm
    rw [hp] at hm
    dsimp only at hm
    have hrun2 : ¬(List.takeWhile (fun ch => !isJSSpace ch)
        (List.drop p (c :: rest))).isEmpty = true := hrun
    rw [if_neg hrun2] at hm
    rcases List.mem_cons.mp hm with h1 | h1
    · subst h1
      intro s h2
      exact Node.noConfusion h2
    · exact ih m h1

theorem mem_mergedNames (nm : String) (l : List Char) :
    nm ∈ matchTagNames (mergedMatches l) ↔ nm ∈ lineTagNames l := by
  rw [mem_matchTagNames]
  unfold lineTagNames
  rw [mem_matchTagNames]
  unfold mergedMatches
  constructor
  · rintro ⟨m, hm, heq⟩
    rw [mem_sortByStart] at hm
    rcases List.mem_append.mp hm with h1 | h1
    · exact ⟨m, h1, heq⟩
    · exact absurd heq (linkAux_no_tag l 0 m h1 nm)
  · rintro ⟨m, hm, heq⟩
    exact ⟨m, (mem_sortByStart m _).mpr (List.mem_append.mpr (Or.inl hm)), heq⟩

theorem interBreak_names (xss : List (List Node)) :
    inlineTagNames (interBreak xss) = (xss.map inlineTagNames).flatten := by
  induction xss with
  | nil => rfl
  | cons x rest ih =>
    cases rest with
    | nil => simp [interBreak, inlineTagNames]
    | cons y rs =>
      rw [show interBreak (x :: y :: rs) = x ++ Node.lineBreak :: interBreak (y :: rs) from rfl]
      rw [show inlineTagNames (x ++ Node.lineBreak :: interBreak (y :: rs)) =
        inlineTagNames x ++ inlineTagNames (Node.lineBreak :: interBreak (y :: rs)) from by
        unfold inlineTagNames
        rw [List.flatMap_append]]
      rw [show inlineTagNames (Node.lineBreak :: interBreak (y :: rs)) =
        inlineTagNames (interBreak (y :: rs)) from rfl]
      rw [ih]
      simp

theorem blank_no_tags (l : List Char) (hb : (trimJS l).isEmpty = true) :
    lineTagNames l = [] := by
  unfold lineTagNames
  rw [spaces_no_tags l ((trimJS_eq_nil_iff l).mp (List.isEmpty_iff.mp hb)) 0]
  rfl

theorem convLines_tags (lines : List (List Char)) :
    (∀ l ∈ lines, fenceLine l = false) → ∀ nm,
    (nm ∈ docTagNames (convLines lines) ↔ ∃ l ∈ lines, nm ∈ lineTagNames l) := by
  induction lines using convLines.induct with
  | case1 =>
    intro _ nm
    simp [convLines, docTagNames]
  | case2 l ls hf rest' ih =>
    intro hfl nm
    exact absurd (hfl l (List.mem_cons_self _ _)) (by simp [hf])
  | case3 l ls hf hb ih =>
    intro hfl nm
    rw [convLines.eq_def]
    simp only
    rw [dif_neg (by simp [hf]), dif_pos hb]
    rw [ih (fun x hx => hfl x (List.mem_cons_of_mem l hx)) nm]
    constructor
    · rintro ⟨x, hx, hmem⟩
      exact ⟨x, List.mem_cons_of_mem l hx, hmem⟩
    · rintro ⟨x, hx, hmem⟩
      rcases List.mem_cons.mp hx with h1 | h1
      · subst h1
        rw [blank_no_tags x hb] at hmem
        simp at hmem
      · exact ⟨x, h1, hmem⟩
  | case4 l ls hf hb rest' ih =>
    intro hfl nm
    rw [convLines.eq_def]
    simp only
    rw [dif_neg (by simp [hf]), dif_neg hb]
    have hpc : paraCond l = true := by
      simp only [paraCond, Bool.and_eq_true, Bool.not_eq_true']
      exact ⟨by simpa using hb, by simpa using hf⟩
    have hsplit : (l :: ls).takeWhile paraCond ++ (l :: ls).dropWhile paraCond = l :: ls :=
      List.takeWhile_append_dropWhile _ _
    have hpara_mem : ∀ x ∈ (l :: ls).takeWhile paraCond, x ∈ l :: ls :=
      fun x hx => (List.takeWhile_sublist _).mem hx
    have hrest_mem : ∀ x ∈ (l :: ls).dropWhile paraCond, x ∈ l :: ls :=
      fun x hx => (List.dropWhile_sublist _).mem hx
    have hihr := ih (fun x hx => hfl x (hrest_mem x hx)) nm
    have hchildren : ∀ nm2 : String,
        nm2 ∈ inlineTagNames (interBreak (((l :: ls).takeWhile paraCond).map
          (fun x => (lineSpans x).map (·.1)))) ↔
        ∃ x ∈ (l :: ls).takeWhile paraCond, nm2 ∈ lineTagNames x := by
      intro nm2
      rw [interBreak_names]
      rw [List.mem_flatten]
      constructor
      · rintro ⟨names, hn, hmem⟩
        rw [List.mem_map] at hn
        obtain ⟨ys, hys, hyeq⟩ := hn
        subst hyeq
        rw [List.mem_map] at hys
        obtain ⟨x, hx, hxeq⟩ := hys
        subst hxeq
        refine ⟨x, hx, ?_⟩
        rw [lineSpans_names x] at hmem
        exact (mem_mergedNames nm2 x).mp hmem
      · rintro ⟨x, hx, hmem⟩
        refine ⟨inlineTagNames ((lineSpans x).map (·.1)),
          List.mem_map.mpr ⟨(lineSpans x).map (·.1), List.mem_map.mpr ⟨x, hx, rfl⟩, rfl⟩, ?_⟩
        rw [lineSpans_names x]
        exact (mem_mergedNames nm2 x).mpr hmem
    constructor
    · intro hmem
      rw [show docTagNames ((if (interBreak (((l :: ls).takeWhile paraCond).map
          (fun x => (lineSpans x).map (·.1)))).isEmpty then []
         else [Node.paragraph (interBreak (((l :: ls).takeWhile paraCond).map
          (fun x => (lineSpans x).map (·.1))))]) ++ convLines ((l :: ls).dropWhile paraCond)) =
        docTagNames (if (interBreak (((l :: ls).takeWhile paraCond).map
          (fun x => (lineSpans x).map (·.1)))).isEmpty then []
         else [Node.paragraph (interBreak (((l :: ls).takeWhile paraCond).map
          (fun x => (lineSpans x).map (·.1))))]) ++
        docTagNames (convLines ((l :: ls).dropWhile paraCond)) from by
        unfold docTagNames
        rw [List.flatMap_append]] at hmem
      rcases List.mem_append.mp hmem with h1 | h1
      · have h2 : nm ∈ inlineTagNames (interBreak (((l :: ls).takeWhile paraCond).map
            (fun x => (lineSpans x).map (·.1)))) := by
          split at h1
          · simp [docTagNames] at h1
          · simpa [docTagNames] using h1
        obtain ⟨x, hx, hmem2⟩ := (hchildren nm).mp h2
        exact ⟨x, hpara_mem x hx, hmem2⟩
      · obtain ⟨x, hx, hmem2⟩ := hihr.mp h1
        exact ⟨x, hrest_mem x hx, hmem2⟩
    · rintro ⟨x, hx, hmem⟩
      have hx2 : x ∈ (l :: ls).takeWhile paraCond ++ (l :: ls).dropWhile paraCond := by
        rw [hsplit]
        exact hx
      rw [show docTagNames ((if (interBreak (((l :: ls).takeWhile paraCond).map
          (fun x => (lineSpans x).map (·.1)))).isEmpty then []
         else [Node.paragraph (interBreak (((l :: ls).takeWhile paraCond).map
          (fun x => (lineSpans x).map (·.1))))]) ++ convLines ((l :: ls).dropWhile paraCond)) =
        docTagNames (if (interBreak (((l :: ls).takeWhile paraCond).map
          (fun x => (lineSpans x).map (·.1)))).isEmpty then []
         else [Node.paragraph (interBreak (((l :: ls).takeWhile paraCond).map
          (fun x => (lineSpans x).map (·.1))))]) ++
        docTagNames (convLines ((l :: ls).dropWhile paraCond)) from by
        unfold docTagNames
        rw [List.flatMap_append]]
      rcases List.mem_append.mp hx2 with h1 | h1
      · apply List.mem_append.mpr
        left
        have h2 := (hchildren nm).mpr ⟨x, h1, hmem⟩
        split
        · rename_i hemp
          rw [List.isEmpty_iff.mp hemp] at h2
          simp [inlineTagNames] at h2
        · simpa [docTagNames] using h2
      · exact List.mem_append.mpr (Or.inr (hihr.mpr ⟨x, h1, hmem⟩))

/-- C1 (amended): for every text in which no line's trimmed form opens a
code fence, `extractTags` returns exactly the set of tag names carried by
the TAG nodes of `convertContentToNodes` — the raw-text scan and the
per-paragraph tokenizer find the same hashtags.  A hashtag inside a code
fence breaks the agreement, as the counterexample shows. -/
theorem tag_agreement (content : String)
    (hfence : ∀ l ∈ splitNl content.data, fenceLine l = false) :
    ∀ nm, nm ∈ extractTags content ↔ nm ∈ docTagNames (convertContentToNodes content) := by
  intro nm
  unfold extractTags
  rw [List.mem_dedup]
  rw [tagNames_split]
  rw [List.mem_flatMap]
  unfold convertContentToNodes
  by_cases htrim : (trimJS content.data).isEmpty = true
  · rw [if_pos htrim]
    simp only [docTagNames, List.flatMap_nil, List.not_mem_nil, iff_false]
    rintro ⟨l, hl, hmem⟩
    have hall : ∀ c ∈ content.data, isJSSpace c = true :=
      (trimJS_eq_nil_iff _).mp (List.isEmpty_iff.mp htrim)
    have hlall : ∀ c ∈ l, isJSSpace c = true :=
      fun c hc => hall c (mem_splitNl_mem content.data l hl c hc)
    rw [show lineTagNames l = matchTagNames (tagAux 0 none l) from rfl] at hmem
    rw [spaces_no_tags l hlall 0] at hmem
    simp [matchTagNames] at hmem
  · rw [if_neg htrim]
    exact (convLines_tags (splitNl content.data) hfence nm).symm


/-- C1 counterexample: in `"```\n#a\n```"` the hashtag sits inside a code
fence — `extractTags` reports it but the parsed document contains no TAG
node, so the two extraction paths disagree. -/
theorem tag_agreement_violated :
    "a" ∈ extractTags "```\n#a\n```" ∧
    "a" ∉ docTagNames (convertContentToNodes "```\n#a\n```") := by
  constructor
  · decide
  · have h : convertContentToNodes "```\n#a\n```" = [Node.codeBlock "" "#a"] := by
      show (if (trimJS "```\n#a\n```".data).isEmpty then []
            else convLines (splitNl "```\n#a\n```".data)) = _
      rw [if_neg (by decide)]
      simp +decide [convLines, splitNl, fenceLine, trimJS, clientLang, joinQuirk,
        List.isPrefixOf, isJSSpace, isWordChar]
    rw [h]
    simp [docTagNames]


/-- C1 witness: the agreement applied at the fence-free text `"hi #work"`
and the tag name `"work"`. -/
theorem tag_agreement_witness :
    (∀ l ∈ splitNl "hi #work".data, fenceLine l = false) ∧
    ("work" ∈ extractTags "hi #work" ↔
      "work" ∈ docTagNames (convertContentToNodes "hi #work")) :=
  ⟨by decide, tag_agreement "hi #work" (by decide) "work"⟩

end Memos
